import Mathlib

/-!
Verification of the canarias-pyme-scraper document pipeline.

This file gives a shallow embedding, in Lean, of the pure core of the
scraper found in "Scraper V.1": the document-id hash
(`FileManager.generate_hash`), URL normalization
(`BaseScraper._normalize_url`), document-candidate classification
(`BaseScraper._is_valid_document_url`), title extraction
(`BaseScraper._extract_document_info`), category selection
(`DocumentCategorizer._select_best_category` / `categorize`), the retry
decorator (`with_retry`), and a state-passing model of
`FileManager.download_document` over an explicit file-system and network
model.  Python strings are modelled as Lean strings restricted to their
ASCII behaviour (`str.lower`, `str.strip` act on ASCII letters and
whitespace); the MD5 digest is an uninterpreted parameter `md5hex`,
since every property of interest depends only on the string that is
hashed, never on the digest itself.
-/

namespace Scraper

/-- Whitespace recognised by Python `str.strip` (ASCII fragment: space,
tab, newline, carriage return, vertical tab, form feed). -/
def isPySpace (c : Char) : Bool :=
  c == ' ' || c == '\t' || c == '\n' || c == '\r' ||
  c == Char.ofNat 11 || c == Char.ofNat 12

/-- Python `str.lower` on a character (ASCII behaviour). -/
def pyLowerChar (c : Char) : Char := c.toLower

/-- Python `str.lower` (ASCII behaviour). -/
def pyLower (s : String) : String := ⟨s.data.map pyLowerChar⟩

/-- Left strip of Python whitespace on a character list. -/
def lstripP (l : List Char) : List Char := l.dropWhile isPySpace

/-- Right strip of Python whitespace on a character list. -/
def rstripP (l : List Char) : List Char := (l.reverse.dropWhile isPySpace).reverse

/-- Python `str.strip()` on a character list. -/
def stripP (l : List Char) : List Char := rstripP (lstripP l)

/-- Python `str.strip()` (ASCII whitespace). -/
def pyStrip (s : String) : String := ⟨stripP s.data⟩

/-- Python `str.rstrip("/")` on a character list. -/
def rstripSlashP (l : List Char) : List Char :=
  (l.reverse.dropWhile (fun c => c == '/')).reverse

/-- Python `str.rstrip("/")`. -/
def pyRstripSlash (s : String) : String := ⟨rstripSlashP s.data⟩

/-- Python substring containment `sub in l` on lists (naive scan, same
truth value as CPython's `in` on strings). -/
def listContains {α : Type} [DecidableEq α] : List α → List α → Bool
  | l, sub =>
    if sub.isPrefixOf l then true
    else match l with
      | [] => false
      | _ :: t => listContains t sub

/-- Python `sub in s` for strings. -/
def pyContains (s sub : String) : Bool := listContains s.data sub.data

/-- Python `s.startswith(p)`. -/
def pyStartsWith (s p : String) : Bool := p.data.isPrefixOf s.data

/-- Python `s.endswith(p)`. -/
def pyEndsWith (s p : String) : Bool := p.data.reverse.isPrefixOf s.data.reverse

/-! ## Document identity: `FileManager.generate_hash`

Python source (utils/file_manager.py, lines 56-60):

    def generate_hash(self, url: str, title: str = "") -> str:
        content = f"..."
        return hashlib.md5(content.encode('utf-8')).hexdigest()

where the format string is the lowercased-and-stripped url, a "|"
separator, and the lowercased-and-stripped title.  The MD5 hex digest is
an uninterpreted parameter `md5hex`: every claim about the id concerns
only which content string is digested. -/

/-- The exact string handed to `hashlib.md5` by `generate_hash`:
`url.lower().strip() + "|" + title.lower().strip()`. -/
def hashContent (url title : String) : String :=
  pyStrip (pyLower url) ++ "|" ++ pyStrip (pyLower title)

/-- `FileManager.generate_hash`, parametric in the MD5 hex digest. -/
def generate_hash (md5hex : String → String) (url title : String) : String :=
  md5hex (hashContent url title)

/-- The document id computed by `CanariasPYMEScraper._process_document`
(main.py line 153): `generate_hash(doc_data['download_url'])`, i.e. the
`title` argument is left at its Python default `""`. -/
def process_document_id (md5hex : String → String) (download_url : String) : String :=
  generate_hash md5hex download_url ""

/-- Two strings differ only in letter case (ASCII model): they lowercase
to the same character sequence. -/
def eqUpToCase (s t : String) : Prop :=
  s.data.map pyLowerChar = t.data.map pyLowerChar

/-- Two strings differ only in leading or trailing whitespace: both are a
common core surrounded by (possibly empty) all-whitespace padding. -/
def eqUpToEdgeWhitespace (s t : String) : Prop :=
  ∃ core w1 w2 w3 w4 : List Char,
    (∀ c ∈ w1, isPySpace c) ∧ (∀ c ∈ w2, isPySpace c) ∧
    (∀ c ∈ w3, isPySpace c) ∧ (∀ c ∈ w4, isPySpace c) ∧
    s.data = w1 ++ core ++ w2 ∧ t.data = w3 ++ core ++ w4

/-- Either of the two difference relations of claim C9. -/
def hashInsensitiveEq (s t : String) : Prop :=
  eqUpToCase s t ∨ eqUpToEdgeWhitespace s t

/-! Helper lemmas about strip/lower. -/

theorem dropWhile_append_of_forall {p : Char → Bool} {a : List Char} (r : List Char)
    (h : ∀ c ∈ a, p c) : (a ++ r).dropWhile p = r.dropWhile p := by
  induction a with
  | nil => rfl
  | cons x xs ih =>
      simp only [List.cons_append, List.dropWhile_cons]
      rw [if_pos (h x (List.mem_cons_self x xs))]
      exact ih fun c hc => h c (List.mem_cons_of_mem x hc)

theorem dropWhile_eq_nil_of_forall {p : Char → Bool} {a : List Char}
    (h : ∀ c ∈ a, p c) : a.dropWhile p = [] := by
  have := dropWhile_append_of_forall (p := p) [] h
  simpa using this

theorem rstripP_append_of_forall {b : List Char} (m : List Char)
    (h : ∀ c ∈ b, isPySpace c) : rstripP (m ++ b) = rstripP m := by
  unfold rstripP
  rw [List.reverse_append, dropWhile_append_of_forall m.reverse
    (fun c hc => h c (List.mem_reverse.mp hc))]

theorem stripP_sandwich {w1 w2 : List Char} (core : List Char)
    (h1 : ∀ c ∈ w1, isPySpace c) (h2 : ∀ c ∈ w2, isPySpace c) :
    stripP (w1 ++ core ++ w2) = stripP core := by
  unfold stripP lstripP
  rw [List.append_assoc, dropWhile_append_of_forall (core ++ w2) h1]
  cases hd : core.dropWhile isPySpace with
  | nil =>
      have hcore : ∀ c ∈ core, isPySpace c := by
        intro c hc
        by_contra hnc
        have := List.dropWhile_eq_nil_iff.mp hd c hc
        exact hnc this
      rw [dropWhile_append_of_forall w2 hcore, dropWhile_eq_nil_of_forall h2]
  | cons x xs =>
      have hx : ¬ isPySpace x := by
        have := List.head?_dropWhile_not isPySpace core
        rw [hd] at this
        simpa using this
      have : (core ++ w2).dropWhile isPySpace = (x :: xs) ++ w2 := by
        rw [List.dropWhile_append]
        simp [hd]
      rw [this]
      exact rstripP_append_of_forall (x :: xs) h2

theorem stripP_lower_eq_of_hashInsensitiveEq {s t : String}
    (h : hashInsensitiveEq s t) :
    stripP ((pyLower s).data) = stripP ((pyLower t).data) := by
  cases h with
  | inl hc =>
      unfold eqUpToCase at hc
      simp only [pyLower]
      rw [hc]
  | inr hw =>
      obtain ⟨core, w1, w2, w3, w4, hw1, hw2, hw3, hw4, hs, ht⟩ := hw
      have lowFix : ∀ c : Char, isPySpace c → pyLowerChar c = c := by
        intro c hc
        simp only [isPySpace, Bool.or_eq_true, beq_iff_eq] at hc
        rcases hc with ((((h | h) | h) | h) | h) | h <;> subst h <;> decide
      have lowSpace : ∀ w : List Char, (∀ c ∈ w, isPySpace c) →
          ∀ c ∈ w.map pyLowerChar, isPySpace c := by
        intro w hw c hc
        obtain ⟨d, hd, rfl⟩ := List.mem_map.mp hc
        rw [lowFix d (hw d hd)]
        exact hw d hd
      simp only [pyLower, hs, ht, List.map_append]
      rw [stripP_sandwich (core.map pyLowerChar) (lowSpace w1 hw1) (lowSpace w2 hw2),
        stripP_sandwich (core.map pyLowerChar) (lowSpace w3 hw3) (lowSpace w4 hw4)]

/-- C1.  AMENDED.  The document id is deterministic: `generate_hash`
depends only on the lowercased-and-stripped URL and title, so two calls
with the same canonicalized URL and title (indeed, any two calls whose
arguments agree after `lower().strip()`) yield the same id.  However the
id computed by `CanariasPYMEScraper._process_document` is NOT the hash of
the (url, title) pair: main.py line 153 calls
`generate_hash(doc_data['download_url'])`, leaving `title` at its default
`""`, so the orchestrator's id is the stable hash of the pair
(normalized url, empty title) — the candidate's title never enters the id. -/
theorem document_id_determinism (md5hex : String → String) :
    (∀ u1 u2 t1 t2 : String,
      pyStrip (pyLower u1) = pyStrip (pyLower u2) →
      pyStrip (pyLower t1) = pyStrip (pyLower t2) →
      generate_hash md5hex u1 t1 = generate_hash md5hex u2 t2) ∧
    (∀ u : String, process_document_id md5hex u = generate_hash md5hex u "") := by
  constructor
  · intro u1 u2 t1 t2 hu ht
    unfold generate_hash hashContent
    rw [hu, ht]
  · intro u
    rfl

/-- Witness for `document_id_determinism` at concrete inputs. -/
theorem document_id_determinism_witness :
    generate_hash (fun s => s) "https://x.com/a.pdf" "Guia " =
      generate_hash (fun s => s) "HTTPS://x.com/a.pdf" "guia" ∧
    process_document_id (fun s => s) "https://x.com/a.pdf" =
      generate_hash (fun s => s) "https://x.com/a.pdf" "" :=
  ⟨(document_id_determinism (fun s => s)).1 _ _ _ _ (by decide) (by decide),
   (document_id_determinism (fun s => s)).2 _⟩

/-- C1.  Counterexample to the claim as stated: the orchestrator id of a
candidate with URL `https://x.com/a.pdf` and title `Guia` differs from
`generate_hash` of that (url, title) pair — already the strings handed to
MD5 differ (`"https://x.com/a.pdf|"` versus `"https://x.com/a.pdf|guia"`),
because `_process_document` omits the title. -/
theorem document_id_ignores_title_cex :
    hashContent "https://x.com/a.pdf" "" ≠ hashContent "https://x.com/a.pdf" "Guia" ∧
    process_document_id (fun s => s) "https://x.com/a.pdf" ≠
      generate_hash (fun s => s) "https://x.com/a.pdf" "Guia" := by
  constructor <;> decide

/-- C9.  CONFIRMED.  `generate_hash` is case-insensitive and insensitive
to leading/trailing whitespace in both components: two (url, title) pairs
whose components differ only in ASCII letter case or only in
leading/trailing whitespace produce the same document id. -/
theorem generate_hash_case_whitespace_insensitive
    (md5hex : String → String) (u1 u2 t1 t2 : String)
    (hu : hashInsensitiveEq u1 u2) (ht : hashInsensitiveEq t1 t2) :
    generate_hash md5hex u1 t1 = generate_hash md5hex u2 t2 := by
  unfold generate_hash hashContent pyStrip
  rw [stripP_lower_eq_of_hashInsensitiveEq hu, stripP_lower_eq_of_hashInsensitiveEq ht]

/-- Witness for `generate_hash_case_whitespace_insensitive`: a
case-variant URL together with a whitespace-padded title. -/
theorem generate_hash_case_whitespace_insensitive_witness :
    generate_hash (fun s => s) "HTTPS://X.com/Doc.PDF" " guia " =
      generate_hash (fun s => s) "https://x.com/doc.pdf" "guia" :=
  generate_hash_case_whitespace_insensitive (fun s => s) _ _ _ _
    (Or.inl (by unfold eqUpToCase; decide))
    (Or.inr ⟨"guia".data, [' '], [' '], [], [],
      by decide, by decide, by decide, by decide, by decide, by decide⟩)

/-! ## Categorizer: `DocumentCategorizer._select_best_category`

Python source (utils/document_categorizer.py, lines 202-235).  A score
mapping (Python dict, insertion-ordered) is modelled as an association
list of category name and rational score (the Python floats are sums of
integer and half-unit bonuses, exactly representable).  Python
`max(scores.values())` folds `max` over the values; `min(tied, key=...)`
returns the first element attaining the minimal key. -/

/-- The category-priority table of `_resolve_tie`
(`category_priorities.get(x, 999)`). -/
def categoryPriority (c : String) : Nat :=
  if c = "fiscal" then 1
  else if c = "laboral" then 2
  else if c = "municipal" then 3
  else if c = "autonomico" then 4
  else if c = "comercial" then 5
  else if c = "societario" then 6
  else if c = "general" then 7
  else 999

/-- Python `min(tied_categories, key=lambda x: category_priorities.get(x, 999))`:
the first element with minimal priority wins.  The `[]` case cannot arise
in the source (`min` of a nonempty list); any default keeps the model total. -/
def pyMinByPriority : List String → String
  | [] => "general"
  | h :: t => t.foldl (fun best c =>
      if categoryPriority c < categoryPriority best then c else best) h

/-- `DocumentCategorizer._resolve_tie`. -/
def resolve_tie (tied : List String) : String := pyMinByPriority tied

/-- Python `max(scores.values())` over the association list.  The `[]`
case is unreachable in the source (guarded by `if not scores`). -/
def maxScoreVal : List (String × ℚ) → ℚ
  | [] => 0
  | p :: t => t.foldl (fun m q => max m q.2) p.2

/-- `DocumentCategorizer._select_best_category`: return "general" when the
mapping is empty or its maximum is zero; otherwise collect the categories
attaining the maximum (in insertion order) and break ties by priority. -/
def select_best_category (scores : List (String × ℚ)) : String :=
  if scores = [] then "general"
  else if maxScoreVal scores = 0 then "general"
  else
    let m := maxScoreVal scores
    let top := (scores.filter (fun p => decide (p.2 = m))).map Prod.fst
    if 1 < top.length then resolve_tie top
    else top.headD "general"

theorem foldl_max_init_le (t : List (String × ℚ)) (a : ℚ) :
    a ≤ t.foldl (fun m q => max m q.2) a := by
  induction t generalizing a with
  | nil => simp
  | cons h tl ih =>
      simp only [List.foldl_cons]
      exact le_trans (le_max_left a h.2) (ih (max a h.2))

theorem foldl_max_mem_le (t : List (String × ℚ)) (a : ℚ) :
    ∀ p ∈ t, p.2 ≤ t.foldl (fun m q => max m q.2) a := by
  induction t generalizing a with
  | nil => intro p hp; cases hp
  | cons h tl ih =>
      intro p hp
      simp only [List.foldl_cons]
      rcases List.mem_cons.mp hp with rfl | hmem
      · exact le_trans (le_max_right a p.2) (foldl_max_init_le tl (max a p.2))
      · exact ih (max a h.2) p hmem

theorem foldl_max_attained (t : List (String × ℚ)) (a : ℚ) :
    t.foldl (fun m q => max m q.2) a = a ∨
    ∃ p ∈ t, t.foldl (fun m q => max m q.2) a = p.2 := by
  induction t generalizing a with
  | nil => exact Or.inl rfl
  | cons h tl ih =>
      simp only [List.foldl_cons]
      rcases ih (max a h.2) with heq | ⟨p, hp, heq⟩
      · rcases max_choice a h.2 with hm | hm
        · exact Or.inl (by rw [heq, hm])
        · exact Or.inr ⟨h, List.mem_cons_self h tl, by rw [heq, hm]⟩
      · exact Or.inr ⟨p, List.mem_cons_of_mem h hp, heq⟩

theorem le_maxScoreVal {scores : List (String × ℚ)} :
    ∀ p ∈ scores, p.2 ≤ maxScoreVal scores := by
  intro p hp
  cases scores with
  | nil => cases hp
  | cons h t =>
      unfold maxScoreVal
      rcases List.mem_cons.mp hp with rfl | hmem
      · exact foldl_max_init_le t p.2
      · exact foldl_max_mem_le t h.2 p hmem

theorem maxScoreVal_attained {scores : List (String × ℚ)} (h : scores ≠ []) :
    ∃ p ∈ scores, maxScoreVal scores = p.2 := by
  cases scores with
  | nil => exact absurd rfl h
  | cons hd t =>
      unfold maxScoreVal
      rcases foldl_max_attained t hd.2 with heq | ⟨p, hp, heq⟩
      · exact ⟨hd, List.mem_cons_self hd t, heq⟩
      · exact ⟨p, List.mem_cons_of_mem hd hp, heq⟩

theorem foldl_minby_mem (t : List String) (a : String) :
    t.foldl (fun best c =>
      if categoryPriority c < categoryPriority best then c else best) a = a ∨
    t.foldl (fun best c =>
      if categoryPriority c < categoryPriority best then c else best) a ∈ t := by
  induction t generalizing a with
  | nil => exact Or.inl rfl
  | cons h tl ih =>
      simp only [List.foldl_cons]
      by_cases hlt : categoryPriority h < categoryPriority a
      · rw [if_pos hlt]
        rcases ih h with heq | hmem
        · exact Or.inr (by rw [heq]; exact List.mem_cons_self h tl)
        · exact Or.inr (List.mem_cons_of_mem h hmem)
      · rw [if_neg hlt]
        rcases ih a with heq | hmem
        · exact Or.inl heq
        · exact Or.inr (List.mem_cons_of_mem h hmem)

theorem foldl_minby_le_init (t : List String) (a : String) :
    categoryPriority (t.foldl (fun best c =>
      if categoryPriority c < categoryPriority best then c else best) a) ≤
      categoryPriority a := by
  induction t generalizing a with
  | nil => exact le_refl _
  | cons h tl ih =>
      simp only [List.foldl_cons]
      by_cases hlt : categoryPriority h < categoryPriority a
      · rw [if_pos hlt]
        exact le_trans (ih h) (le_of_lt hlt)
      · rw [if_neg hlt]
        exact ih a

theorem foldl_minby_le_mem (t : List String) (a : String) :
    ∀ c ∈ t, categoryPriority (t.foldl (fun best c =>
      if categoryPriority c < categoryPriority best then c else best) a) ≤
      categoryPriority c := by
  induction t generalizing a with
  | nil => intro c hc; cases hc
  | cons h tl ih =>
      intro c hc
      simp only [List.foldl_cons]
      rcases List.mem_cons.mp hc with rfl | hmem
      · by_cases hlt : categoryPriority c < categoryPriority a
        · rw [if_pos hlt]
          exact foldl_minby_le_init tl c
        · rw [if_neg hlt]
          exact le_trans (foldl_minby_le_init tl a) (le_of_not_lt hlt)
      · by_cases hlt : categoryPriority h < categoryPriority a
        · rw [if_pos hlt]; exact ih h c hmem
        · rw [if_neg hlt]; exact ih a c hmem

theorem pyMinByPriority_mem {l : List String} (h : l ≠ []) :
    pyMinByPriority l ∈ l := by
  cases l with
  | nil => exact absurd rfl h
  | cons hd t =>
      show List.foldl _ hd t ∈ hd :: t
      rcases foldl_minby_mem t hd with heq | hmem
      · rw [heq]; exact List.mem_cons_self hd t
      · exact List.mem_cons_of_mem hd hmem

theorem pyMinByPriority_le {l : List String} :
    ∀ c ∈ l, categoryPriority (pyMinByPriority l) ≤ categoryPriority c := by
  intro c hc
  cases l with
  | nil => cases hc
  | cons hd t =>
      show categoryPriority (List.foldl _ hd t) ≤ _
      rcases List.mem_cons.mp hc with rfl | hmem
      · exact foldl_minby_le_init t c
      · exact foldl_minby_le_mem t hd c hmem

theorem mem_top_iff {scores : List (String × ℚ)} {m : ℚ} {c : String} :
    c ∈ (scores.filter (fun p => decide (p.2 = m))).map Prod.fst ↔
      ∃ p ∈ scores, p.1 = c ∧ p.2 = m := by
  constructor
  · intro hc
    obtain ⟨p, hp, rfl⟩ := List.mem_map.mp hc
    obtain ⟨hmem, hval⟩ := List.mem_filter.mp hp
    exact ⟨p, hmem, rfl, of_decide_eq_true hval⟩
  · rintro ⟨p, hmem, rfl, hval⟩
    exact List.mem_map.mpr ⟨p, List.mem_filter.mpr ⟨hmem, decide_eq_true hval⟩, rfl⟩

/-- C3.  CONFIRMED.  For every score mapping with non-negative scores (as
all mappings produced by `_calculate_category_scores` and
`_apply_heuristics` are: every contribution is a non-negative bonus),
`_select_best_category` returns "general" when no category scores above
zero, and otherwise returns a category paired with the maximum score such
that, among all categories tied at the maximum, the returned one has the
least priority number under the fixed ordering fiscal(1) > laboral(2) >
municipal(3) > autonomico(4) > comercial(5) > societario(6) > general(7). -/
theorem select_best_category_spec (scores : List (String × ℚ))
    (hnn : ∀ p ∈ scores, 0 ≤ p.2) :
    ((∀ p ∈ scores, p.2 ≤ 0) → select_best_category scores = "general") ∧
    ((∃ p ∈ scores, 0 < p.2) →
      (select_best_category scores, maxScoreVal scores) ∈ scores ∧
      ∀ p ∈ scores, p.2 = maxScoreVal scores →
        categoryPriority (select_best_category scores) ≤ categoryPriority p.1) := by
  constructor
  · intro hle
    unfold select_best_category
    by_cases hne : scores = []
    · rw [if_pos hne]
    · rw [if_neg hne]
      have hmax0 : maxScoreVal scores = 0 := by
        obtain ⟨p, hp, heq⟩ := maxScoreVal_attained hne
        rw [heq]
        exact le_antisymm (hle p hp) (hnn p hp)
      rw [if_pos hmax0]
  · rintro ⟨q, hq, hqpos⟩
    have hne : scores ≠ [] := fun h => by subst h; cases hq
    have hmaxpos : 0 < maxScoreVal scores := lt_of_lt_of_le hqpos (le_maxScoreVal q hq)
    have hrw : select_best_category scores =
        (if 1 < ((scores.filter
            (fun p => decide (p.2 = maxScoreVal scores))).map Prod.fst).length
         then resolve_tie ((scores.filter
            (fun p => decide (p.2 = maxScoreVal scores))).map Prod.fst)
         else ((scores.filter
            (fun p => decide (p.2 = maxScoreVal scores))).map Prod.fst).headD
              "general") := by
      unfold select_best_category
      rw [if_neg hne, if_neg (ne_of_gt hmaxpos)]
    have htopne : (scores.filter
        (fun p => decide (p.2 = maxScoreVal scores))).map Prod.fst ≠ [] := by
      obtain ⟨p, hp, heq⟩ := maxScoreVal_attained hne
      intro hnil
      have : p.1 ∈ (scores.filter
          (fun p => decide (p.2 = maxScoreVal scores))).map Prod.fst :=
        mem_top_iff.mpr ⟨p, hp, rfl, heq.symm⟩
      rw [hnil] at this
      cases this
    rw [hrw]
    by_cases hlen : 1 < ((scores.filter
        (fun p => decide (p.2 = maxScoreVal scores))).map Prod.fst).length
    · rw [if_pos hlen]
      have hmem : resolve_tie ((scores.filter
          (fun p => decide (p.2 = maxScoreVal scores))).map Prod.fst) ∈
          (scores.filter
            (fun p => decide (p.2 = maxScoreVal scores))).map Prod.fst :=
        pyMinByPriority_mem htopne
      obtain ⟨p, hp, hfst, hsnd⟩ := mem_top_iff.mp hmem
      constructor
      · have : p = (resolve_tie ((scores.filter
            (fun p => decide (p.2 = maxScoreVal scores))).map Prod.fst),
            maxScoreVal scores) := by
          cases p; simp_all
        rw [← this]; exact hp
      · intro p' hp' hval
        exact pyMinByPriority_le p'.1 (mem_top_iff.mpr ⟨p', hp', rfl, hval⟩)
    · rw [if_neg hlen]
      cases htop : (scores.filter
          (fun p => decide (p.2 = maxScoreVal scores))).map Prod.fst with
      | nil => exact absurd htop htopne
      | cons c rest =>
          have hrest : rest = [] := by
            rw [htop] at hlen
            cases rest with
            | nil => rfl
            | cons r rs => exact absurd (by simp [List.length_cons]) hlen
          subst hrest
          have hc : c ∈ (scores.filter
              (fun p => decide (p.2 = maxScoreVal scores))).map Prod.fst := by
            rw [htop]; exact List.mem_singleton.mpr rfl
          obtain ⟨p, hp, hfst, hsnd⟩ := mem_top_iff.mp hc
          constructor
          · have : p = (c, maxScoreVal scores) := by cases p; simp_all
            simp only [List.headD_cons]
            rw [← this]; exact hp
          · intro p' hp' hval
            have : p'.1 ∈ (scores.filter
                (fun p => decide (p.2 = maxScoreVal scores))).map Prod.fst :=
              mem_top_iff.mpr ⟨p', hp', rfl, hval⟩
            rw [htop] at this
            simp only [List.headD_cons]
            rw [List.mem_singleton.mp this]

/-- Witness for `select_best_category_spec`: a three-way tie at score 3
between societario, fiscal and municipal resolves to fiscal. -/
theorem select_best_category_spec_witness :
    select_best_category [("societario", 3), ("fiscal", 3), ("municipal", 3)] =
        "fiscal" ∧
    (select_best_category [("societario", 3), ("fiscal", 3), ("municipal", 3)],
      maxScoreVal [("societario", 3), ("fiscal", 3), ("municipal", 3)]) ∈
      [(("societario" : String), (3 : ℚ)), ("fiscal", 3), ("municipal", 3)] := by
  have h := (select_best_category_spec
    [("societario", 3), ("fiscal", 3), ("municipal", 3)]
    (by intro p hp; fin_cases hp <;> norm_num)).2
    ⟨("fiscal", 3), by simp, by norm_num⟩
  exact ⟨by decide, h.1⟩

/-! ## Categorizer entry point: `DocumentCategorizer.categorize`

Python source (utils/document_categorizer.py, lines 98-134).  The scoring
stages `_calculate_category_scores` and `_apply_heuristics` are modelled
as an opaque-to-the-theorem parameter `scoring` taking the prepared
lowercased text together with the raw title, institution and url; claim
C10 is precisely that the result does not depend on this stage when the
prepared text is shorter than 3 characters. -/

/-- `DocumentCategorizer.categorize`, parametric in the combined scoring
stage.  `full_text` is `f"{title} {content}".lower().strip()`; when it is
empty or shorter than 3 characters the source returns "general" before
any scoring work. -/
def categorize (scoring : String → String → String → String → List (String × ℚ))
    (title content institution url : String) : String :=
  let fullText := pyStrip (pyLower (title ++ " " ++ content))
  if fullText = "" ∨ fullText.length < 3 then "general"
  else select_best_category (scoring fullText title institution url)

/-- C10.  CONFIRMED.  When the lowercased, stripped concatenation of
title and description has fewer than 3 characters, `categorize` returns
"general" for EVERY scoring stage — in particular without consulting the
keyword/pattern/institution/URL scoring of the source. -/
theorem categorize_short_text_general (title content institution url : String)
    (h : (pyStrip (pyLower (title ++ " " ++ content))).length < 3) :
    ∀ scoring, categorize scoring title content institution url = "general" := by
  intro scoring
  unfold categorize
  rw [if_pos (Or.inr h)]

/-- Witness for `categorize_short_text_general` at a one-letter title. -/
theorem categorize_short_text_general_witness :
    categorize (fun _ _ _ _ => [("fiscal", 5)]) "a" "" "hacienda"
      "https://x.com/a.pdf" = "general" :=
  categorize_short_text_general "a" "" "hacienda" "https://x.com/a.pdf"
    (by decide) (fun _ _ _ _ => [("fiscal", 5)])

/-! ## Retry policy: `with_retry` and `BaseScraper._make_request`

Python source (utils/retry_decorator.py lines 7-29, base_scraper.py lines
207-232).  The decorator runs the wrapped function up to
`max_retries + 1` times, catching EVERY `Exception`; only when
`attempt == max_retries` is the exception re-raised.  `_make_request`
itself re-raises `Timeout`, `ConnectionError` and `HTTPError` (the latter
produced by `response.raise_for_status()` for every 4xx/5xx status; a 429
additionally sleeps before re-raising).  An attempt is modelled as a
function from the attempt index to its outcome. -/

/-- Exceptions that can escape one `_make_request` attempt. -/
inductive PyExc where
  | timeout : PyExc
  | connError : PyExc
  | httpError : Nat → PyExc
  | sslError : PyExc
  | otherError : PyExc
deriving DecidableEq

/-- The retry loop of `with_retry`: `remaining` counts the retries still
allowed (initially `max_retries`, so `max_retries + 1` calls happen in
the worst case); the second component is the number of calls made. -/
def with_retry_go {α : Type} (f : Nat → Except PyExc α) :
    Nat → Nat → Except PyExc α × Nat
  | attempt, 0 =>
      match f attempt with
      | .ok a => (.ok a, attempt + 1)
      | .error e => (.error e, attempt + 1)
  | attempt, r + 1 =>
      match f attempt with
      | .ok a => (.ok a, attempt + 1)
      | .error _ => with_retry_go f (attempt + 1) r

/-- The `with_retry(max_retries=...)` decorator applied to an attempt
function: returns the surfaced outcome and the number of attempts made. -/
def with_retry {α : Type} (maxRetries : Nat) (f : Nat → Except PyExc α) :
    Except PyExc α × Nat :=
  with_retry_go f 0 maxRetries

/-- Per-attempt network outcome seen by `_make_request`. -/
inductive NetOutcome where
  | timeout : NetOutcome
  | connError : NetOutcome
  | resp : Nat → NetOutcome
deriving DecidableEq

/-- `requests.Response.raise_for_status`: raises `HTTPError` exactly for
status codes 400-599. -/
def raise_for_status (status : Nat) : Except PyExc Nat :=
  if 400 ≤ status ∧ status ≤ 599 then .error (.httpError status) else .ok status

/-- One `_make_request` attempt: timeouts and connection errors are
re-raised to the decorator, and every HTTP error status — 4xx included —
is re-raised as well (for 429 the source merely sleeps longer first). -/
def make_request_attempt (o : NetOutcome) : Except PyExc Nat :=
  match o with
  | .timeout => .error .timeout
  | .connError => .error .connError
  | .resp s => raise_for_status s

/-- `_make_request` as decorated in base_scraper.py:
`@with_retry(max_retries=3, delay=1, backoff=2)`. -/
def fetch_with_retry (outcomes : Nat → NetOutcome) : Except PyExc Nat × Nat :=
  with_retry 3 (fun k => make_request_attempt (outcomes k))

theorem with_retry_go_all_fail {α : Type} (f : Nat → Except PyExc α) :
    ∀ r attempt, (∀ k, attempt ≤ k → k ≤ attempt + r → ∃ e, f k = .error e) →
    with_retry_go f attempt r = (f (attempt + r), attempt + r + 1) := by
  intro r
  induction r with
  | zero =>
      intro attempt h
      obtain ⟨e, he⟩ := h attempt (le_refl _) (by omega)
      simp [with_retry_go, he]
  | succ r ih =>
      intro attempt h
      obtain ⟨e, he⟩ := h attempt (le_refl _) (by omega)
      have := ih (attempt + 1) (fun k hk1 hk2 => h k (by omega) (by omega))
      simp only [with_retry_go, he]
      rw [this]
      congr 2 <;> omega

theorem with_retry_go_first_success {α : Type} (f : Nat → Except PyExc α) :
    ∀ r attempt j a, attempt ≤ j → j ≤ attempt + r →
    (∀ k, attempt ≤ k → k < j → ∃ e, f k = .error e) →
    f j = .ok a →
    with_retry_go f attempt r = (.ok a, j + 1) := by
  intro r
  induction r with
  | zero =>
      intro attempt j a h1 h2 _ hok
      have : j = attempt := by omega
      subst this
      simp [with_retry_go, hok]
  | succ r ih =>
      intro attempt j a h1 h2 hfail hok
      by_cases hj : j = attempt
      · subst hj
        simp [with_retry_go, hok]
      · obtain ⟨e, he⟩ := hfail attempt (le_refl _) (by omega)
        simp only [with_retry_go, he]
        exact ih (attempt + 1) j a (by omega) (by omega)
          (fun k hk1 hk2 => hfail k (by omega) hk2) hok

/-- C5.  AMENDED.  The decorator `with_retry` catches EVERY exception, so
the fetch engine retries on timeout, connection failure and any HTTP
error status — 5xx and 429, but also every other 4xx.  A client error
such as 404 is therefore NOT surfaced immediately: every failing attempt
is retried until `max_retries` extra attempts are spent.  Precisely: if
all attempts up to `max_retries` fail, the outcome of the last attempt is
surfaced after exactly `max_retries + 1` calls; if the first success
happens at attempt `j`, its value is returned after `j + 1` calls. -/
theorem with_retry_policy {α : Type} (maxRetries : Nat) (f : Nat → Except PyExc α) :
    ((∀ k, k ≤ maxRetries → ∃ e, f k = Except.error e) →
      with_retry maxRetries f = (f maxRetries, maxRetries + 1)) ∧
    (∀ j a, j ≤ maxRetries → (∀ k, k < j → ∃ e, f k = Except.error e) →
      f j = Except.ok a → with_retry maxRetries f = (Except.ok a, j + 1)) := by
  constructor
  · intro h
    have := with_retry_go_all_fail f maxRetries 0 (fun k _ hk2 => h k (by omega))
    simpa [with_retry] using this
  · intro j a hj hfail hok
    exact with_retry_go_first_success f maxRetries 0 j a (by omega) (by omega)
      (fun k _ hk => hfail k hk) hok

/-- Witness for `with_retry_policy`: two transient timeouts followed by a
success return the success after three calls; a constant 404 stream
surfaces the 404 after four calls. -/
theorem with_retry_policy_witness :
    with_retry 3 (fun k => if k < 2 then Except.error PyExc.timeout
        else Except.ok (200 : Nat)) = (Except.ok 200, 3) ∧
    with_retry 3 (fun _ => (Except.error (PyExc.httpError 404) : Except PyExc Nat)) =
      (Except.error (PyExc.httpError 404), 4) := by
  constructor
  · exact (with_retry_policy 3 _).2 2 200 (by omega)
      (fun k hk => ⟨PyExc.timeout, by simp [hk]⟩) (by simp)
  · exact (with_retry_policy 3 _).1 (fun k _ => ⟨PyExc.httpError 404, rfl⟩)

/-- C5.  Counterexample to the claim as stated: a request that fails with
HTTP 404 on every attempt is retried three times — `_make_request` under
`with_retry(max_retries=3)` makes 4 calls, not 1, before surfacing the
client error. -/
theorem retry_retries_client_error_cex :
    fetch_with_retry (fun _ => NetOutcome.resp 404) =
      (Except.error (PyExc.httpError 404), 4) ∧ (4 : Nat) ≠ 1 := by
  constructor
  · rfl
  · decide

/-! ## Candidate classification: `BaseScraper._is_valid_document_url`

Python source (canarias-pyme-scraper/institution_scrapers/base_scraper.py,
lines 368-404).  The check works on the lowercased URL:
extension-as-suffix, then extension-as-substring, then document keywords,
then parameter markers. -/

/-- The `valid_extensions` list of `_is_valid_document_url`. -/
def valid_extensions : List String :=
  [".pdf", ".doc", ".docx", ".xls", ".xlsx", ".ppt", ".pptx",
   ".odt", ".ods", ".odp", ".rtf", ".txt", ".zip", ".rar"]

/-- The `doc_patterns` keyword list of `_is_valid_document_url`. -/
def doc_patterns : List String :=
  ["documento", "formulario", "modelo", "impreso", "download",
   "descargar", "archivo", "file", "attachment", "media",
   "solicitud", "certificado", "informe", "guia", "manual"]

/-- The URL-parameter marker list of `_is_valid_document_url`. -/
def param_markers : List String :=
  ["?file=", "&file=", "filename=", "document="]

/-- `BaseScraper._is_valid_document_url`. -/
def is_valid_document_url (url : String) : Bool :=
  let url_lower := pyLower url
  if valid_extensions.any (fun ext => pyEndsWith url_lower ext) then true
  else if valid_extensions.any (fun ext => pyContains url_lower ext) then true
  else if doc_patterns.any (fun p => pyContains url_lower p) then true
  else if param_markers.any (fun p => pyContains url_lower p) then true
  else false

theorem listContains_iff_infix {α : Type} [DecidableEq α] (l sub : List α) :
    listContains l sub = true ↔ sub <:+: l := by
  induction l with
  | nil =>
      unfold listContains
      constructor
      · intro h
        by_cases hp : sub.isPrefixOf ([] : List α)
        · exact (List.isPrefixOf_iff_prefix.mp hp).isInfix
        · rw [if_neg hp] at h; cases h
      · intro h
        have : sub = [] := List.eq_nil_of_infix_nil h
        subst this
        rfl
  | cons x t ih =>
      unfold listContains
      by_cases hp : sub.isPrefixOf (x :: t)
      · rw [if_pos hp]
        simp only [true_iff]
        exact (List.isPrefixOf_iff_prefix.mp hp).isInfix
      · rw [if_neg hp]
        rw [ih]
        constructor
        · exact fun h => List.infix_cons_iff.mpr (Or.inr h)
        · intro h
          rcases List.infix_cons_iff.mp h with hpre | hinf
          · exact absurd (List.isPrefixOf_iff_prefix.mpr hpre) hp
          · exact hinf

theorem pyContains_iff (s sub : String) :
    pyContains s sub = true ↔ sub.data <:+: s.data :=
  listContains_iff_infix s.data sub.data

theorem pyEndsWith_iff_suffix (s p : String) :
    pyEndsWith s p = true ↔ p.data <:+ s.data := by
  unfold pyEndsWith
  rw [List.isPrefixOf_iff_prefix]
  exact List.reverse_prefix

theorem pyContains_of_pyEndsWith {s p : String} (h : pyEndsWith s p = true) :
    pyContains s p = true :=
  (pyContains_iff s p).mpr ((pyEndsWith_iff_suffix s p).mp h).isInfix

theorem pyEndsWith_pyLower_of_pyEndsWith {s p : String}
    (hp : pyLower p = p) (h : pyEndsWith s p = true) :
    pyEndsWith (pyLower s) p = true := by
  rw [pyEndsWith_iff_suffix] at h ⊢
  have : (pyLower p).data <:+ (pyLower s).data := by
    obtain ⟨t, ht⟩ := h
    exact ⟨t.map pyLowerChar, by simp only [pyLower, ← List.map_append, ht]⟩
  rwa [hp] at this

/-- C7.  CONFIRMED.  Any URL ending in ".pdf" is classified as a document
candidate.  Conversely a URL ending in ".html" that carries no document
indicator — no document extension occurring as a substring, no document
keyword, no file/document parameter marker (all checked case-insensitively
by the source) — is never classified as a candidate. -/
theorem is_valid_document_url_classification :
    (∀ url : String, pyEndsWith url ".pdf" = true →
      is_valid_document_url url = true) ∧
    (∀ url : String, pyEndsWith (pyLower url) ".html" = true →
      (∀ ext ∈ valid_extensions, pyContains (pyLower url) ext = false) →
      (∀ p ∈ doc_patterns, pyContains (pyLower url) p = false) →
      (∀ p ∈ param_markers, pyContains (pyLower url) p = false) →
      is_valid_document_url url = false) := by
  constructor
  · intro url h
    have hlow : pyEndsWith (pyLower url) ".pdf" = true :=
      pyEndsWith_pyLower_of_pyEndsWith (by decide) h
    unfold is_valid_document_url
    rw [if_pos]
    exact List.any_eq_true.mpr ⟨".pdf", by decide, hlow⟩
  · intro url _ hext hkw hparam
    unfold is_valid_document_url
    have h1 : valid_extensions.any
        (fun ext => pyEndsWith (pyLower url) ext) = false := by
      rw [List.any_eq_false]
      intro ext hmem hend
      have := pyContains_of_pyEndsWith hend
      rw [hext ext hmem] at this
      cases this
    have h2 : valid_extensions.any
        (fun ext => pyContains (pyLower url) ext) = false := by
      rw [List.any_eq_false]
      intro ext hmem hc
      rw [hext ext hmem] at hc; cases hc
    have h3 : doc_patterns.any (fun p => pyContains (pyLower url) p) = false := by
      rw [List.any_eq_false]
      intro p hmem hc
      rw [hkw p hmem] at hc; cases hc
    have h4 : param_markers.any (fun p => pyContains (pyLower url) p) = false := by
      rw [List.any_eq_false]
      intro p hmem hc
      rw [hparam p hmem] at hc; cases hc
    simp only [h1, h2, h3, h4]
    rfl

/-- Witness for `is_valid_document_url_classification`: a concrete PDF
URL is accepted and a plain HTML page URL is rejected. -/
theorem is_valid_document_url_classification_witness :
    is_valid_document_url "https://www.gobcan.es/area/Informe-2024.pdf" = true ∧
    is_valid_document_url "https://www.gobcan.es/contacto/page.html" = false :=
  ⟨is_valid_document_url_classification.1 _ (by decide),
   is_valid_document_url_classification.2 "https://www.gobcan.es/contacto/page.html"
     (by decide) (by decide) (by decide) (by decide)⟩

/-! ## URL canonicalization: `BaseScraper._normalize_url`

Python source (canarias-pyme-scraper/institution_scrapers/base_scraper.py,
lines 42-67):

    url = url.strip().rstrip(slash)
    if not url.startswith((http-prefix, https-prefix)):
        url = https-prefix + url
    parsed = urlparse(url)
    path = parsed.path
    while double-slash in path: path = path.replace(double-slash, slash)
    normalized = scheme + separator + netloc + path
    if parsed.query: normalized += question-mark + query
    if parsed.fragment: normalized += hash-sign + fragment

`urlparse` is embedded for exactly the inputs this function feeds it —
strings starting with a scheme prefix — following CPython `urlsplit`:
netloc runs up to the first of the three delimiters, the fragment is
split at the first hash sign, then the query at the first question mark.
One pass of Python `path.replace` on adjacent slashes is
`replaceDoubleSlashP`; the `while` loop is `collapseGo` with fuel
`path.length`, which dominates the number of iterations because each
pass strictly shortens a path that still has a double slash. -/

/-- Delimiters ending the netloc portion in `urlsplit`. -/
def stopChar (c : Char) : Bool := c == '/' || c == '?' || c == '#'

/-- Split a list at the first occurrence of `c` (CPython
`str.split(c, 1)` when `c` occurs). -/
def splitAtFirst (c : Char) : List Char → Option (List Char × List Char)
  | [] => none
  | x :: t =>
    if x = c then some ([], t)
    else match splitAtFirst c t with
      | none => none
      | some (a, b) => some (x :: a, b)

/-- Fragment split of `urlsplit`: at the first hash sign, if any. -/
def splitFragment (l : List Char) : List Char × List Char :=
  match splitAtFirst '#' l with
  | none => (l, [])
  | some (a, b) => (a, b)

/-- Query split of `urlsplit`: at the first question mark, if any. -/
def splitQuery (l : List Char) : List Char × List Char :=
  match splitAtFirst '?' l with
  | none => (l, [])
  | some (a, b) => (a, b)

/-- Parsed URL components as produced by `urlparse`. -/
structure UrlParts where
  scheme : String
  netloc : String
  path : String
  query : String
  fragment : String
deriving DecidableEq

/-- The netloc/path/query/fragment phase of `urlsplit`, applied to the
text after `scheme://`. -/
def parseAfterScheme (scheme : String) (rest : List Char) : UrlParts :=
  ⟨scheme,
   ⟨rest.takeWhile (fun c => !stopChar c)⟩,
   ⟨(splitQuery (splitFragment (rest.dropWhile (fun c => !stopChar c))).1).1⟩,
   ⟨(splitQuery (splitFragment (rest.dropWhile (fun c => !stopChar c))).1).2⟩,
   ⟨(splitFragment (rest.dropWhile (fun c => !stopChar c))).2⟩⟩

/-- `urlparse` for the inputs `_normalize_url` produces (strings carrying
an explicit http or https prefix); for a scheme-less string `urlsplit`
leaves the netloc empty and splits fragment and query the same way. -/
def parse_http_url (u : String) : UrlParts :=
  if pyStartsWith u "https://" then parseAfterScheme "https" (u.data.drop 8)
  else if pyStartsWith u "http://" then parseAfterScheme "http" (u.data.drop 7)
  else
    ⟨"", "",
     ⟨(splitQuery (splitFragment u.data).1).1⟩,
     ⟨(splitQuery (splitFragment u.data).1).2⟩,
     ⟨(splitFragment u.data).2⟩⟩

/-- One pass of Python `path.replace` on a double slash: scan left to
right, replace each non-overlapping occurrence by a single slash. -/
def replaceDoubleSlashP : List Char → List Char
  | [] => []
  | [c] => [c]
  | c1 :: c2 :: t =>
    if c1 = '/' ∧ c2 = '/' then '/' :: replaceDoubleSlashP t
    else c1 :: replaceDoubleSlashP (c2 :: t)

/-- Python `double-slash in path`. -/
def hasDoubleSlash (l : List Char) : Bool := listContains l ['/', '/']

theorem replaceDouble_le (l : List Char) :
    (replaceDoubleSlashP l).length ≤ l.length := by
  induction l using replaceDoubleSlashP.induct with
  | case1 => simp [replaceDoubleSlashP]
  | case2 c => simp [replaceDoubleSlashP]
  | case3 c1 c2 t hss ih =>
      simp only [replaceDoubleSlashP, if_pos hss, List.length_cons]
      omega
  | case4 c1 c2 t hss ih =>
      simp only [replaceDoubleSlashP, if_neg hss]
      simp only [List.length_cons] at ih ⊢
      omega

theorem listContains_cons_of {α : Type} [DecidableEq α] {x : α} {rest sub : List α}
    (h : listContains rest sub = true) : listContains (x :: rest) sub = true := by
  unfold listContains
  split
  · rfl
  · exact h

theorem hasDouble_cons_cons_slash (t : List Char) :
    hasDoubleSlash ('/' :: '/' :: t) = true := by
  simp [hasDoubleSlash, listContains, List.isPrefixOf]

theorem replaceDouble_cons2 (c1 c2 : Char) (t : List Char) :
    replaceDoubleSlashP (c1 :: c2 :: t) =
      if c1 = '/' ∧ c2 = '/' then '/' :: replaceDoubleSlashP t
      else c1 :: replaceDoubleSlashP (c2 :: t) := rfl

theorem slash_pair : ('/' : Char) = '/' ∧ ('/' : Char) = '/' := ⟨rfl, rfl⟩

theorem replaceDouble_lt {l : List Char} (h : hasDoubleSlash l = true) :
    (replaceDoubleSlashP l).length < l.length := by
  induction l using replaceDoubleSlashP.induct with
  | case1 => simp [hasDoubleSlash, listContains] at h
  | case2 c =>
      simp [hasDoubleSlash, listContains, List.isPrefixOf] at h
  | case3 c1 c2 t hss ih =>
      rw [replaceDouble_cons2, if_pos hss]
      have := replaceDouble_le t
      simp only [List.length_cons]
      omega
  | case4 c1 c2 t hss ih =>
      have hd : hasDoubleSlash (c2 :: t) = true := by
        unfold hasDoubleSlash listContains at h
        split at h
        · rename_i hpre
          rw [List.isPrefixOf_iff_prefix] at hpre
          rcases hpre with ⟨rest, hrest⟩
          simp only [List.cons_append, List.nil_append, List.cons.injEq] at hrest
          exact absurd ⟨hrest.1.symm, hrest.2.1.symm⟩ hss
        · exact h
      have := ih hd
      rw [replaceDouble_cons2, if_neg hss]
      simp only [List.length_cons] at this ⊢
      omega

/-- The `while` loop of `_normalize_url` with explicit fuel; fuel equal
to the list length always reaches the loop\'s fixpoint because each
iteration with a double slash present strictly shortens the list. -/
def collapseGo : Nat → List Char → List Char
  | 0, l => l
  | fuel + 1, l =>
    if hasDoubleSlash l then collapseGo fuel (replaceDoubleSlashP l) else l

/-- The collapsed path: `while double-slash in path: path = path.replace(...)`. -/
def collapseSlashesP (l : List Char) : List Char := collapseGo l.length l

theorem collapseGo_congr :
    ∀ f1 f2 l, l.length ≤ f1 → l.length ≤ f2 → collapseGo f1 l = collapseGo f2 l := by
  intro f1
  induction f1 with
  | zero =>
      intro f2 l h1 _
      have : l = [] := List.length_eq_zero.mp (Nat.le_zero.mp h1)
      subst this
      cases f2 with
      | zero => rfl
      | succ f2 => simp [collapseGo, hasDoubleSlash, listContains]
  | succ f1 ih =>
      intro f2 l h1 h2
      cases f2 with
      | zero =>
          have : l = [] := List.length_eq_zero.mp (Nat.le_zero.mp h2)
          subst this
          simp [collapseGo, hasDoubleSlash, listContains]
      | succ f2 =>
          simp only [collapseGo]
          by_cases hd : hasDoubleSlash l = true
          · rw [if_pos hd, if_pos hd]
            have hlt := replaceDouble_lt hd
            exact ih f2 (replaceDoubleSlashP l) (by omega) (by omega)
          · rw [if_neg hd, if_neg hd]

theorem collapseSlashes_step {l : List Char} (h : hasDoubleSlash l = true) :
    collapseSlashesP l = collapseSlashesP (replaceDoubleSlashP l) := by
  unfold collapseSlashesP
  cases hl : l.length with
  | zero =>
      have : l = [] := List.length_eq_zero.mp hl
      subst this
      simp [hasDoubleSlash, listContains] at h
  | succ k =>
      simp only [collapseGo, if_pos h]
      have hlt := replaceDouble_lt h
      exact collapseGo_congr k (replaceDoubleSlashP l).length (replaceDoubleSlashP l)
        (by omega) (le_refl _)

theorem collapseSlashes_fix {l : List Char} (h : hasDoubleSlash l = false) :
    collapseSlashesP l = l := by
  unfold collapseSlashesP
  cases hl : l.length with
  | zero => rfl
  | succ k =>
      simp only [collapseGo, h]
      rfl

/-- Canonical adjacent-slash collapse: drop a slash directly followed by
another slash.  Used only as a proof device for `collapseSlashesP`. -/
def squashSlashes : List Char → List Char
  | [] => []
  | [c] => [c]
  | c1 :: c2 :: t =>
    if c1 = '/' ∧ c2 = '/' then squashSlashes (c2 :: t)
    else c1 :: squashSlashes (c2 :: t)

theorem squash_cons2 (c1 c2 : Char) (t : List Char) :
    squashSlashes (c1 :: c2 :: t) =
      if c1 = '/' ∧ c2 = '/' then squashSlashes (c2 :: t)
      else c1 :: squashSlashes (c2 :: t) := rfl

theorem squash_cons_replace :
    ∀ l : List Char, ∀ c : Char,
      squashSlashes (c :: replaceDoubleSlashP l) = squashSlashes (c :: l) := by
  intro l
  induction l using replaceDoubleSlashP.induct with
  | case1 => intro c; rfl
  | case2 d => intro c; rfl
  | case3 c1 c2 t hss ih =>
      intro c
      obtain ⟨h1, h2⟩ := hss
      subst h1; subst h2
      rw [replaceDouble_cons2, if_pos slash_pair]
      by_cases hc : c = '/'
      · subst hc
        rw [squash_cons2, if_pos slash_pair, squash_cons2, if_pos slash_pair]
        rw [ih '/', squash_cons2, if_pos slash_pair]
      · rw [squash_cons2, if_neg (fun hp => hc hp.1),
          squash_cons2, if_neg (fun hp => hc hp.1)]
        rw [ih '/', squash_cons2, if_pos slash_pair]
  | case4 c1 c2 t hss ih =>
      intro c
      rw [replaceDouble_cons2, if_neg hss]
      by_cases hcc : c = '/' ∧ c1 = '/'
      · rw [squash_cons2, if_pos hcc, squash_cons2, if_pos hcc]
        exact ih c1
      · rw [squash_cons2, if_neg hcc, squash_cons2, if_neg hcc]
        rw [ih c1]

theorem squash_replace (l : List Char) :
    squashSlashes (replaceDoubleSlashP l) = squashSlashes l := by
  cases l with
  | nil => rfl
  | cons c1 rest =>
      cases rest with
      | nil => rfl
      | cons c2 t =>
          by_cases hss : c1 = '/' ∧ c2 = '/'
          · obtain ⟨h1, h2⟩ := hss
            subst h1; subst h2
            rw [replaceDouble_cons2, if_pos slash_pair]
            rw [squash_cons_replace t '/']
            rw [squash_cons2, if_pos slash_pair]
          · rw [replaceDouble_cons2, if_neg hss]
            exact squash_cons_replace (c2 :: t) c1

theorem squash_of_no_double {l : List Char} (h : hasDoubleSlash l = false) :
    squashSlashes l = l := by
  induction l using squashSlashes.induct with
  | case1 => rfl
  | case2 c => rfl
  | case3 c1 c2 t hss ih =>
      obtain ⟨h1, h2⟩ := hss
      subst h1; subst h2
      rw [hasDouble_cons_cons_slash t] at h
      cases h
  | case4 c1 c2 t hss ih =>
      have htail : hasDoubleSlash (c2 :: t) = false := by
        by_contra hc
        have : hasDoubleSlash (c1 :: c2 :: t) = true :=
          listContains_cons_of (Bool.of_not_eq_false hc)
        rw [h] at this
        cases this
      rw [squash_cons2, if_neg hss, ih htail]

theorem collapse_eq_squash (l : List Char) :
    collapseSlashesP l = squashSlashes l := by
  suffices H : ∀ n l, List.length l ≤ n → collapseSlashesP l = squashSlashes l from
    H l.length l (le_refl _)
  intro n
  induction n with
  | zero =>
      intro l hl
      have : l = [] := List.length_eq_zero.mp (Nat.le_zero.mp hl)
      subst this
      rfl
  | succ n ih =>
      intro l hl
      by_cases hd : hasDoubleSlash l = true
      · rw [collapseSlashes_step hd,
          ih (replaceDoubleSlashP l) (by have := replaceDouble_lt hd; omega),
          squash_replace l]
      · rw [collapseSlashes_fix (Bool.of_not_eq_true hd),
          squash_of_no_double (Bool.of_not_eq_true hd)]

theorem squash_double_slash :
    ∀ a b : List Char,
      squashSlashes (a ++ '/' :: '/' :: b) = squashSlashes (a ++ '/' :: b) := by
  intro a
  induction a with
  | nil =>
      intro b
      simp only [List.nil_append]
      rw [squash_cons2, if_pos slash_pair]
  | cons c a' ih =>
      intro b
      cases a' with
      | nil =>
          simp only [List.nil_append, List.cons_append]
          by_cases hc : c = '/' ∧ ('/' : Char) = '/'
          · rw [squash_cons2, if_pos hc, squash_cons2, if_pos slash_pair,
              squash_cons2, if_pos hc]
          · rw [squash_cons2, if_neg hc, squash_cons2, if_pos slash_pair,
              squash_cons2, if_neg hc]
      | cons d a'' =>
          simp only [List.cons_append]
          have ihx := ih b
          simp only [List.cons_append] at ihx
          by_cases hcd : c = '/' ∧ d = '/'
          · rw [squash_cons2, if_pos hcd, squash_cons2, if_pos hcd]
            exact ihx
          · rw [squash_cons2, if_neg hcd, squash_cons2, if_neg hcd]
            rw [ihx]

theorem collapse_double_slash (a b : List Char) :
    collapseSlashesP (a ++ '/' :: '/' :: b) = collapseSlashesP (a ++ '/' :: b) := by
  rw [collapse_eq_squash, collapse_eq_squash]
  exact squash_double_slash a b

def forceScheme (u : String) : String :=
  if pyStartsWith u "http://" || pyStartsWith u "https://" then u
  else "https://" ++ u

/-- The reconstruction step of `_normalize_url`: scheme, netloc, the
slash-collapsed path, then query and fragment when nonempty. -/
def reconstructUrl (p : UrlParts) : String :=
  p.scheme ++ "://" ++ p.netloc ++ (⟨collapseSlashesP p.path.data⟩ : String) ++
  (if p.query ≠ "" then "?" ++ p.query else "") ++
  (if p.fragment ≠ "" then "#" ++ p.fragment else "")

/-- The body of `_normalize_url` after the whitespace/slash strip. -/
def normalize_url_core (u : String) : String :=
  reconstructUrl (parse_http_url (forceScheme u))

/-- `BaseScraper._normalize_url`. -/
def normalize_url (url : String) : String :=
  if url = "" then url
  else normalize_url_core (pyRstripSlash (pyStrip url))

theorem splitAtFirst_of_not_mem (c : Char) (l : List Char) (h : c ∉ l) :
    splitAtFirst c l = none := by
  induction l with
  | nil => rfl
  | cons x t ih =>
      simp only [splitAtFirst]
      rw [if_neg (fun he : x = c => h (List.mem_cons.mpr (Or.inl he.symm)))]
      rw [ih fun hm => h (List.mem_cons_of_mem x hm)]

theorem splitAtFirst_append (c : Char) (a b : List Char) (h : c ∉ a) :
    splitAtFirst c (a ++ c :: b) = some (a, b) := by
  induction a with
  | nil => simp [splitAtFirst]
  | cons x t ih =>
      simp only [List.cons_append, splitAtFirst, List.append_eq]
      rw [if_neg (fun he : x = c => h (List.mem_cons.mpr (Or.inl he.symm)))]
      rw [ih fun hm => h (List.mem_cons_of_mem x hm)]

theorem takeWhile_append_of_forall {p : Char → Bool} {a : List Char} (b : List Char)
    (ha : ∀ c ∈ a, p c) : (a ++ b).takeWhile p = a ++ b.takeWhile p := by
  induction a with
  | nil => rfl
  | cons x t ih =>
      simp only [List.cons_append, List.takeWhile_cons]
      rw [if_pos (ha x (List.mem_cons_self x t))]
      rw [ih fun c hc => ha c (List.mem_cons_of_mem x hc)]

theorem takeWhile_eq_nil_of_head {p : Char → Bool} :
    ∀ l : List Char, (∀ x t, l = x :: t → p x = false) → l.takeWhile p = []
  | [], _ => rfl
  | x :: t, h => by
      simp only [List.takeWhile_cons]
      rw [h x t rfl]
      rfl

theorem dropWhile_eq_self_of_head {p : Char → Bool} :
    ∀ l : List Char, (∀ x t, l = x :: t → p x = false) → l.dropWhile p = l
  | [], _ => rfl
  | x :: t, h => by
      simp only [List.dropWhile_cons]
      rw [h x t rfl]
      rfl

/-- Strings (as character lists) free of Python whitespace. -/
def noWSL (l : List Char) : Prop := ∀ c ∈ l, isPySpace c = false

/-- Strings free of Python whitespace. -/
def noWS (s : String) : Prop := noWSL s.data

theorem dropWhile_eq_self_of_forall {p : Char → Bool} {l : List Char}
    (h : ∀ c ∈ l, p c = false) : l.dropWhile p = l := by
  cases l with
  | nil => rfl
  | cons x t =>
      simp only [List.dropWhile_cons]
      rw [h x (List.mem_cons_self x t)]
      rfl

theorem stripP_eq_self {l : List Char} (h : noWSL l) : stripP l = l := by
  unfold stripP lstripP rstripP
  rw [dropWhile_eq_self_of_forall h,
    dropWhile_eq_self_of_forall (fun c hc => h c (List.mem_reverse.mp hc)),
    List.reverse_reverse]

theorem rstripSlash_eq_self {l : List Char} (h : l.getLast? ≠ some '/') :
    rstripSlashP l = l := by
  unfold rstripSlashP
  have : l.reverse.dropWhile (fun c => c == '/') = l.reverse := by
    apply dropWhile_eq_self_of_head
    intro x t hx
    have : l.reverse.head? = some x := by rw [hx]; rfl
    rw [List.head?_reverse] at this
    have hxne : x ≠ '/' := fun he => h (by rw [← he]; exact this)
    simp [hxne]
  rw [this, List.reverse_reverse]

theorem dropWhile_append_ne_nil {p : Char → Bool} {a : List Char} (b : List Char)
    (h : a.dropWhile p ≠ []) : (a ++ b).dropWhile p = a.dropWhile p ++ b := by
  induction a with
  | nil => exact absurd rfl h
  | cons x t ih =>
      simp only [List.cons_append, List.dropWhile_cons] at *
      by_cases hp : p x = true
      · simp only [hp, if_true] at h ⊢
        exact ih h
      · simp only [Bool.not_eq_true] at hp
        simp only [hp] at h ⊢
        simp

theorem rstripSlash_append {a b : List Char} (h : rstripSlashP b ≠ []) :
    rstripSlashP (a ++ b) = a ++ rstripSlashP b := by
  unfold rstripSlashP at *
  have hb : b.reverse.dropWhile (fun c => c == '/') ≠ [] := by
    intro hnil
    rw [hnil] at h
    exact h rfl
  rw [List.reverse_append, dropWhile_append_ne_nil a.reverse hb,
    List.reverse_append, List.reverse_reverse]

/-- Tail contributed by the query component when present. -/
def qtail : Option (List Char) → List Char
  | none => []
  | some q => '?' :: q

/-- Tail contributed by the fragment component when present. -/
def ftail : Option (List Char) → List Char
  | none => []
  | some f => '#' :: f

/-- Assemble an http(s) URL from scheme, netloc, path, optional query and
optional fragment. -/
def urlAssemble (s : String) (n p : List Char)
    (qOpt fOpt : Option (List Char)) : String :=
  ⟨s.data ++ "://".data ++ n ++ p ++ qtail qOpt ++ ftail fOpt⟩

/-- Well-formedness of the components of an assembled http(s) URL:
http or https scheme, netloc free of delimiters, slash-led path free of
query/fragment delimiters, nonempty query free of the fragment delimiter,
nonempty fragment, no whitespace anywhere, and a final character other
than a slash (so the `rstrip` preamble of `_normalize_url` is inert). -/
structure UrlWF (s : String) (n p : List Char)
    (qOpt fOpt : Option (List Char)) : Prop where
  scheme_ok : s = "http" ∨ s = "https"
  netloc_stop : ∀ c ∈ n, stopChar c = false
  netloc_ws : ∀ c ∈ n, isPySpace c = false
  path_start : p = [] ∨ ∃ p', p = '/' :: p'
  path_query : '?' ∉ p
  path_frag : '#' ∉ p
  path_ws : ∀ c ∈ p, isPySpace c = false
  query_ne : ∀ q, qOpt = some q → q ≠ []
  query_frag : ∀ q, qOpt = some q → '#' ∉ q
  query_ws : ∀ q, qOpt = some q → ∀ c ∈ q, isPySpace c = false
  frag_ne : ∀ f, fOpt = some f → f ≠ []
  frag_ws : ∀ f, fOpt = some f → ∀ c ∈ f, isPySpace c = false
  ends_ok : (urlAssemble s n p qOpt fOpt).data.getLast? ≠ some '/'

theorem parseAfterScheme_reconstruct (s : String) (n p : List Char)
    (qOpt fOpt : Option (List Char))
    (hn : ∀ c ∈ n, stopChar c = false)
    (hp0 : p = [] ∨ ∃ p', p = '/' :: p')
    (hpq : '?' ∉ p) (hpf : '#' ∉ p)
    (hqf : ∀ q, qOpt = some q → '#' ∉ q) :
    parseAfterScheme s (n ++ (p ++ qtail qOpt ++ ftail fOpt)) =
      ⟨s, ⟨n⟩, ⟨p⟩, ⟨qOpt.getD []⟩, ⟨fOpt.getD []⟩⟩ := by
  have hnp : ∀ c ∈ n, (fun c => !stopChar c) c = true := by
    intro c hc
    simp [hn c hc]
  have hheadstop : ∀ x t, p ++ qtail qOpt ++ ftail fOpt = x :: t →
      (fun c => !stopChar c) x = false := by
    intro x t hx
    rcases hp0 with hpnil | ⟨p', hp'⟩
    · subst hpnil
      simp only [List.nil_append] at hx
      cases hq : qOpt with
      | some q =>
          rw [hq] at hx
          simp only [qtail, List.cons_append, List.cons.injEq] at hx
          rw [← hx.1]
          decide
      | none =>
          rw [hq] at hx
          simp only [qtail, List.nil_append] at hx
          cases hf : fOpt with
          | some f =>
              rw [hf] at hx
              simp only [ftail, List.cons.injEq] at hx
              rw [← hx.1]
              decide
          | none =>
              rw [hf] at hx
              simp only [ftail] at hx
              cases hx
    · subst hp'
      simp only [List.cons_append, List.cons.injEq] at hx
      rw [← hx.1]
      decide
  have htake : (n ++ (p ++ qtail qOpt ++ ftail fOpt)).takeWhile
      (fun c => !stopChar c) = n := by
    rw [takeWhile_append_of_forall _ hnp,
      takeWhile_eq_nil_of_head _ hheadstop, List.append_nil]
  have hdrop : (n ++ (p ++ qtail qOpt ++ ftail fOpt)).dropWhile
      (fun c => !stopChar c) = p ++ qtail qOpt ++ ftail fOpt := by
    rw [dropWhile_append_of_forall _ hnp,
      dropWhile_eq_self_of_head _ hheadstop]
  have hfragmem : '#' ∉ p ++ qtail qOpt := by
    intro hmem
    rcases List.mem_append.mp hmem with hmem | hmem
    · exact hpf hmem
    · cases hq : qOpt with
      | none => rw [hq] at hmem; cases hmem
      | some q =>
          rw [hq] at hmem
          simp only [qtail] at hmem
          rcases List.mem_cons.mp hmem with he | hmem
          · cases he
          · exact hqf q hq hmem
  have hfrag : splitFragment (p ++ qtail qOpt ++ ftail fOpt) =
      (p ++ qtail qOpt, fOpt.getD []) := by
    cases hf : fOpt with
    | none =>
        simp only [ftail, List.append_nil, splitFragment,
          splitAtFirst_of_not_mem '#' _ hfragmem, Option.getD_none]
    | some f =>
        simp only [ftail, splitFragment,
          splitAtFirst_append '#' _ f hfragmem, Option.getD_some]
  have hquery : splitQuery (p ++ qtail qOpt) = (p, qOpt.getD []) := by
    cases hq : qOpt with
    | none =>
        simp only [qtail, List.append_nil, splitQuery,
          splitAtFirst_of_not_mem '?' _ hpq, Option.getD_none]
    | some q =>
        simp only [qtail, splitQuery,
          splitAtFirst_append '?' _ q hpq, Option.getD_some]
  unfold parseAfterScheme
  rw [htake, hdrop, hfrag]
  simp only [hquery]

theorem data_mk (l : List Char) : (⟨l⟩ : String).data = l := rfl

theorem parse_http_url_assemble (s : String) (n p : List Char)
    (qOpt fOpt : Option (List Char))
    (hs : s = "http" ∨ s = "https")
    (hn : ∀ c ∈ n, stopChar c = false)
    (hp0 : p = [] ∨ ∃ p', p = '/' :: p')
    (hpq : '?' ∉ p) (hpf : '#' ∉ p)
    (hqf : ∀ q, qOpt = some q → '#' ∉ q) :
    parse_http_url (urlAssemble s n p qOpt fOpt) =
      ⟨s, ⟨n⟩, ⟨p⟩, ⟨qOpt.getD []⟩, ⟨fOpt.getD []⟩⟩ := by
  rcases hs with hs | hs <;> subst hs
  · have hdata : (urlAssemble "http" n p qOpt fOpt).data =
        "http://".data ++ (n ++ (p ++ qtail qOpt ++ ftail fOpt)) := by
      simp [urlAssemble, data_mk]
    have h1 : pyStartsWith (urlAssemble "http" n p qOpt fOpt) "https://" = false := by
      unfold pyStartsWith
      rw [hdata]
      show (['h','t','t','p','s',':','/','/'] : List Char).isPrefixOf
        (['h','t','t','p',':','/','/'] ++ _) = false
      simp [List.isPrefixOf]
    have h2 : pyStartsWith (urlAssemble "http" n p qOpt fOpt) "http://" = true := by
      unfold pyStartsWith
      rw [hdata]
      show (['h','t','t','p',':','/','/'] : List Char).isPrefixOf
        (['h','t','t','p',':','/','/'] ++ _) = true
      simp [List.isPrefixOf]
    unfold parse_http_url
    rw [h1, h2]
    simp only [Bool.false_eq_true, if_false, if_true]
    have hdrop7 : (urlAssemble "http" n p qOpt fOpt).data.drop 7 =
        n ++ (p ++ qtail qOpt ++ ftail fOpt) := by
      rw [hdata]
      show (['h','t','t','p',':','/','/'] ++ _).drop 7 = _
      simp
    rw [hdrop7]
    exact parseAfterScheme_reconstruct "http" n p qOpt fOpt hn hp0 hpq hpf hqf
  · have hdata : (urlAssemble "https" n p qOpt fOpt).data =
        "https://".data ++ (n ++ (p ++ qtail qOpt ++ ftail fOpt)) := by
      simp [urlAssemble, data_mk]
    have h1 : pyStartsWith (urlAssemble "https" n p qOpt fOpt) "https://" = true := by
      unfold pyStartsWith
      rw [hdata]
      show (['h','t','t','p','s',':','/','/'] : List Char).isPrefixOf
        (['h','t','t','p','s',':','/','/'] ++ _) = true
      simp [List.isPrefixOf]
    unfold parse_http_url
    rw [h1]
    simp only [if_true]
    have hdrop8 : (urlAssemble "https" n p qOpt fOpt).data.drop 8 =
        n ++ (p ++ qtail qOpt ++ ftail fOpt) := by
      rw [hdata]
      show (['h','t','t','p','s',':','/','/'] ++ _).drop 8 = _
      simp
    rw [hdrop8]
    exact parseAfterScheme_reconstruct "https" n p qOpt fOpt hn hp0 hpq hpf hqf

theorem isPrefixOf_append_self (a b : List Char) : a.isPrefixOf (a ++ b) = true := by
  rw [List.isPrefixOf_iff_prefix]
  exact List.prefix_append a b

theorem https_data_split : "https".data ++ "://".data = "https://".data := rfl

theorem http_data_split : "http".data ++ "://".data = "http://".data := rfl

theorem noWSL_append {a b : List Char} (ha : noWSL a) (hb : noWSL b) :
    noWSL (a ++ b) := by
  intro c hc
  rcases List.mem_append.mp hc with h | h
  · exact ha c h
  · exact hb c h

theorem urlAssemble_noWSL {s : String} {n p : List Char}
    {qOpt fOpt : Option (List Char)} (wf : UrlWF s n p qOpt fOpt) :
    noWSL (urlAssemble s n p qOpt fOpt).data := by
  have hsch : noWSL s.data := by
    rcases wf.scheme_ok with hs | hs <;> subst hs <;> (unfold noWSL; decide)
  have hsep : noWSL "://".data := by unfold noWSL; decide
  have hq : noWSL (qtail qOpt) := by
    cases hq : qOpt with
    | none => intro c hc; cases hc
    | some q =>
        intro c hc
        rcases List.mem_cons.mp hc with rfl | hc
        · decide
        · exact wf.query_ws q hq c hc
  have hf : noWSL (ftail fOpt) := by
    cases hf : fOpt with
    | none => intro c hc; cases hc
    | some f =>
        intro c hc
        rcases List.mem_cons.mp hc with rfl | hc
        · decide
        · exact wf.frag_ws f hf c hc
  exact noWSL_append (noWSL_append (noWSL_append (noWSL_append
    (noWSL_append hsch hsep) wf.netloc_ws) wf.path_ws) hq) hf

theorem urlAssemble_starts {s : String} {n p : List Char}
    {qOpt fOpt : Option (List Char)} (hs : s = "http" ∨ s = "https") :
    (pyStartsWith (urlAssemble s n p qOpt fOpt) "http://" ||
      pyStartsWith (urlAssemble s n p qOpt fOpt) "https://") = true := by
  rcases hs with hs | hs <;> subst hs
  · have : pyStartsWith (urlAssemble "http" n p qOpt fOpt) "http://" = true := by
      unfold pyStartsWith urlAssemble
      rw [http_data_split]
      simp only [List.append_assoc]
      exact isPrefixOf_append_self _ _
    rw [this, Bool.true_or]
  · have : pyStartsWith (urlAssemble "https" n p qOpt fOpt) "https://" = true := by
      unfold pyStartsWith urlAssemble
      rw [https_data_split]
      simp only [List.append_assoc]
      exact isPrefixOf_append_self _ _
    rw [this, Bool.or_true]

/-- The central behaviour of `_normalize_url` on a well-formed http(s)
URL: the scheme, netloc, query and fragment pass through unchanged and
the path has its repeated slashes collapsed. -/
theorem normalize_url_assemble (s : String) (n p : List Char)
    (qOpt fOpt : Option (List Char)) (wf : UrlWF s n p qOpt fOpt) :
    normalize_url (urlAssemble s n p qOpt fOpt) =
      ⟨s.data ++ "://".data ++ n ++ collapseSlashesP p ++
        qtail qOpt ++ ftail fOpt⟩ := by
  have hdata_ne : (urlAssemble s n p qOpt fOpt).data ≠ [] := by
    rcases wf.scheme_ok with hs | hs <;> subst hs <;> simp [urlAssemble, data_mk]
  have hne : urlAssemble s n p qOpt fOpt ≠ "" := by
    intro h
    exact hdata_ne (by rw [h])
  have hstrip : pyStrip (urlAssemble s n p qOpt fOpt) =
      urlAssemble s n p qOpt fOpt := by
    apply String.ext
    show stripP (urlAssemble s n p qOpt fOpt).data = _
    rw [stripP_eq_self (urlAssemble_noWSL wf)]
  have hrstrip : pyRstripSlash (urlAssemble s n p qOpt fOpt) =
      urlAssemble s n p qOpt fOpt := by
    apply String.ext
    show rstripSlashP (urlAssemble s n p qOpt fOpt).data = _
    rw [rstripSlash_eq_self wf.ends_ok]
  have hforce : forceScheme (urlAssemble s n p qOpt fOpt) =
      urlAssemble s n p qOpt fOpt := by
    unfold forceScheme
    rw [if_pos (urlAssemble_starts wf.scheme_ok)]
  unfold normalize_url
  rw [if_neg hne, hstrip, hrstrip]
  unfold normalize_url_core
  rw [hforce, parse_http_url_assemble s n p qOpt fOpt wf.scheme_ok
    wf.netloc_stop wf.path_start wf.path_query wf.path_frag wf.query_frag]
  unfold reconstructUrl
  apply String.ext
  simp only [String.data_append, data_mk]
  have hqcase : ((if (⟨qOpt.getD []⟩ : String) ≠ "" then
      "?" ++ (⟨qOpt.getD []⟩ : String) else "")).data = qtail qOpt := by
    cases hq : qOpt with
    | none =>
        rw [if_neg (by intro h; exact h rfl)]
        rfl
    | some q =>
        have hne : (⟨q⟩ : String) ≠ "" := by
          intro h
          have : q = [] := by
            have := congrArg String.data h
            simpa [data_mk] using this
          exact wf.query_ne q hq this
        simp only [Option.getD_some]
        rw [if_pos hne]
        rfl
  have hfcase : ((if (⟨fOpt.getD []⟩ : String) ≠ "" then
      "#" ++ (⟨fOpt.getD []⟩ : String) else "")).data = ftail fOpt := by
    cases hf : fOpt with
    | none =>
        rw [if_neg (by intro h; exact h rfl)]
        rfl
    | some f =>
        have hne : (⟨f⟩ : String) ≠ "" := by
          intro h
          have : f = [] := by
            have := congrArg String.data h
            simpa [data_mk] using this
          exact wf.frag_ne f hf this
        simp only [Option.getD_some]
        rw [if_pos hne]
        rfl
  rw [hqcase, hfcase]

theorem string_ne_empty_of_data {u : String} (h : u.data ≠ []) : u ≠ "" := by
  intro he
  exact h (by rw [he])

theorem normalize_append_slash (u : String) (hu : u ≠ "") (hws : noWS u) :
    normalize_url (u ++ "/") = normalize_url u := by
  have hdata : (u ++ "/").data = u.data ++ ['/'] := String.data_append u "/"
  have h1 : (u ++ "/") ≠ "" :=
    string_ne_empty_of_data (by rw [hdata]; simp)
  unfold normalize_url
  rw [if_neg h1, if_neg hu]
  congr 1
  have hstrip1 : pyStrip (u ++ "/") = u ++ "/" := by
    apply String.ext
    show stripP (u ++ "/").data = _
    rw [hdata, stripP_eq_self (noWSL_append hws (by unfold noWSL; decide))]
  have hstrip2 : pyStrip u = u := by
    apply String.ext
    show stripP u.data = _
    rw [stripP_eq_self hws]
  rw [hstrip1, hstrip2]
  apply String.ext
  show rstripSlashP (u ++ "/").data = rstripSlashP u.data
  rw [hdata]
  unfold rstripSlashP
  rw [List.reverse_append]
  show (('/' :: u.data.reverse).dropWhile (fun c => c == '/')).reverse = _
  rw [List.dropWhile_cons, if_pos (by decide)]

theorem rstripSlash_prefix_of (l : List Char) : rstripSlashP l <+: l := by
  unfold rstripSlashP
  have h : l.reverse.dropWhile (fun c => c == '/') <:+ l.reverse :=
    List.dropWhile_suffix _
  have := h.reverse
  rwa [List.reverse_reverse] at this

theorem parse_https_append (x : String) :
    parse_http_url ("https://" ++ x) = parseAfterScheme "https" x.data := by
  have hpre : pyStartsWith ("https://" ++ x) "https://" = true := by
    unfold pyStartsWith
    rw [String.data_append]
    exact isPrefixOf_append_self _ _
  unfold parse_http_url
  rw [hpre]
  simp only [if_true]
  congr 1

theorem normalize_force_https (u : String) (hu : u ≠ "") (hws : noWS u)
    (hrs : rstripSlashP u.data ≠ [])
    (h1 : pyStartsWith u "http://" = false)
    (h2 : pyStartsWith u "https://" = false) :
    normalize_url u = normalize_url ("https://" ++ u) ∧
    pyStartsWith (normalize_url u) "https://" = true := by
  have hstripu : pyStrip u = u := by
    apply String.ext
    show stripP u.data = _
    rw [stripP_eq_self hws]
  have hv1 : pyStartsWith (pyRstripSlash u) "http://" = false := by
    by_contra hc
    have hpre : "http://".data <+: rstripSlashP u.data :=
      List.isPrefixOf_iff_prefix.mp (Bool.of_not_eq_false hc)
    have : "http://".data <+: u.data := hpre.trans (rstripSlash_prefix_of u.data)
    have : pyStartsWith u "http://" = true :=
      List.isPrefixOf_iff_prefix.mpr this
    rw [h1] at this
    cases this
  have hv2 : pyStartsWith (pyRstripSlash u) "https://" = false := by
    by_contra hc
    have hpre : "https://".data <+: rstripSlashP u.data :=
      List.isPrefixOf_iff_prefix.mp (Bool.of_not_eq_false hc)
    have : "https://".data <+: u.data := hpre.trans (rstripSlash_prefix_of u.data)
    have : pyStartsWith u "https://" = true :=
      List.isPrefixOf_iff_prefix.mpr this
    rw [h2] at this
    cases this
  have hlhs : normalize_url u =
      reconstructUrl (parse_http_url ("https://" ++ pyRstripSlash u)) := by
    unfold normalize_url
    rw [if_neg hu, hstripu]
    unfold normalize_url_core forceScheme
    rw [hv1, hv2]
    simp only [Bool.or_self, Bool.false_eq_true, if_false]
  have hrhs : normalize_url ("https://" ++ u) =
      reconstructUrl (parse_http_url ("https://" ++ pyRstripSlash u)) := by
    have hne : ("https://" ++ u) ≠ "" := by
      apply string_ne_empty_of_data
      rw [String.data_append]
      simp
    have hstrips : pyStrip ("https://" ++ u) = "https://" ++ u := by
      apply String.ext
      show stripP ("https://" ++ u).data = _
      rw [String.data_append,
        stripP_eq_self (noWSL_append (by unfold noWSL; decide) hws)]
    have hrstrips : pyRstripSlash ("https://" ++ u) =
        "https://" ++ pyRstripSlash u := by
      apply String.ext
      show rstripSlashP ("https://" ++ u).data = _
      rw [String.data_append, rstripSlash_append hrs, String.data_append]
      rfl
    have hforce : forceScheme ("https://" ++ pyRstripSlash u) =
        "https://" ++ pyRstripSlash u := by
      unfold forceScheme
      rw [if_pos]
      have : pyStartsWith ("https://" ++ pyRstripSlash u) "https://" = true := by
        unfold pyStartsWith
        rw [String.data_append]
        exact isPrefixOf_append_self _ _
      rw [this, Bool.or_true]
    unfold normalize_url
    rw [if_neg hne, hstrips, hrstrips]
    unfold normalize_url_core
    rw [hforce]
  constructor
  · rw [hlhs, hrhs]
  · rw [hlhs, parse_https_append]
    unfold reconstructUrl parseAfterScheme
    unfold pyStartsWith
    simp only [String.data_append, data_mk]
    rw [show (['h','t','t','p','s'] : List Char) ++ [':','/','/'] =
        ['h','t','t','p','s',':','/','/'] from rfl]
    simp only [List.append_assoc]
    exact isPrefixOf_append_self _ _

/-- C2.  Counterexample to the claim as stated: `_normalize_url` strips a
trailing path slash only when it ends the whole URL string
(`url.strip().rstrip(slash)` runs before parsing), so two URLs that
differ only by a trailing slash on the path but carry a query component
normalize to different strings. -/
theorem normalize_url_trailing_slash_query_cex :
    normalize_url "https://x.com/a/?q=1" = "https://x.com/a/?q=1" ∧
    normalize_url "https://x.com/a?q=1" = "https://x.com/a?q=1" ∧
    normalize_url "https://x.com/a/?q=1" ≠ normalize_url "https://x.com/a?q=1" := by
  refine ⟨by decide, by decide, by decide⟩

/-- C2.  AMENDED.  `_normalize_url` behaves as claimed except that the
trailing-slash identification only applies to a slash at the very end of
the URL string (`rstrip` runs on the raw URL before parsing), so it does
not apply when a query or fragment follows the path; and symmetrically a
trailing slash at the end of a query or fragment IS stripped.  Precisely:
(1) appending a trailing slash to any nonempty whitespace-free URL does
not change its canonical form; (2) on a well-formed http(s) URL that does
not end in a slash, normalization preserves scheme, netloc, query and
fragment and collapses repeated path separators; (3) two such URLs
differing only by a duplicated path separator normalize identically; and
(4) a whitespace-free URL without a scheme is given the https scheme:
it normalizes exactly as its https-prefixed form does, and the result
starts with the https prefix. -/
theorem normalize_url_equivalences :
    (∀ u : String, u ≠ "" → noWS u →
      normalize_url (u ++ "/") = normalize_url u) ∧
    (∀ (s : String) (n p : List Char) (qOpt fOpt : Option (List Char)),
      UrlWF s n p qOpt fOpt →
      normalize_url (urlAssemble s n p qOpt fOpt) =
        ⟨s.data ++ "://".data ++ n ++ collapseSlashesP p ++
          qtail qOpt ++ ftail fOpt⟩) ∧
    (∀ (s : String) (n p1 p2 : List Char) (qOpt fOpt : Option (List Char)),
      UrlWF s n (p1 ++ '/' :: '/' :: p2) qOpt fOpt →
      UrlWF s n (p1 ++ '/' :: p2) qOpt fOpt →
      normalize_url (urlAssemble s n (p1 ++ '/' :: '/' :: p2) qOpt fOpt) =
        normalize_url (urlAssemble s n (p1 ++ '/' :: p2) qOpt fOpt)) ∧
    (∀ u : String, u ≠ "" → noWS u → rstripSlashP u.data ≠ [] →
      pyStartsWith u "http://" = false →
      pyStartsWith u "https://" = false →
      normalize_url u = normalize_url ("https://" ++ u) ∧
      pyStartsWith (normalize_url u) "https://" = true) := by
  refine ⟨normalize_append_slash, normalize_url_assemble, ?_, normalize_force_https⟩
  intro s n p1 p2 qOpt fOpt wf1 wf2
  rw [normalize_url_assemble s n _ qOpt fOpt wf1,
    normalize_url_assemble s n _ qOpt fOpt wf2,
    collapse_double_slash p1 p2]

/-- Witness for `normalize_url_equivalences` at concrete URLs: trailing
slash removal, reconstruction of a URL with query and fragment, collapse
of a duplicated path separator, and https forcing. -/
theorem normalize_url_equivalences_witness :
    normalize_url ("https://x.com/a" ++ "/") = normalize_url "https://x.com/a" ∧
    normalize_url (urlAssemble "https" "x.com".data "/a//b".data
        (some "q=1".data) (some "f".data)) =
      ⟨"https".data ++ "://".data ++ "x.com".data ++
        collapseSlashesP "/a//b".data ++ qtail (some "q=1".data) ++
        ftail (some "f".data)⟩ ∧
    normalize_url (urlAssemble "https" "x.com".data
        ("/a".data ++ '/' :: '/' :: "b".data) none none) =
      normalize_url (urlAssemble "https" "x.com".data
        ("/a".data ++ '/' :: "b".data) none none) ∧
    normalize_url "x.com/a" = normalize_url ("https://" ++ "x.com/a") ∧
    pyStartsWith (normalize_url "x.com/a") "https://" = true := by
  have wfq : UrlWF "https" "x.com".data "/a//b".data
      (some "q=1".data) (some "f".data) := by
    refine ⟨Or.inr rfl, by decide, by decide, Or.inr ⟨"a//b".data, rfl⟩,
      by decide, by decide, by decide, ?_, ?_, ?_, ?_, ?_, by decide⟩
    · intro q hq
      cases hq
      decide
    · intro q hq
      cases hq
      decide
    · intro q hq
      cases hq
      decide
    · intro f hf
      cases hf
      decide
    · intro f hf
      cases hf
      decide
  have wfd1 : UrlWF "https" "x.com".data
      ("/a".data ++ '/' :: '/' :: "b".data) none none := by
    refine ⟨Or.inr rfl, by decide, by decide, Or.inr ⟨"a//b".data, rfl⟩,
      by decide, by decide, by decide,
      (fun q hq => nomatch hq), (fun q hq => nomatch hq),
      (fun q hq => nomatch hq), (fun f hf => nomatch hf),
      (fun f hf => nomatch hf), by decide⟩
  have wfd2 : UrlWF "https" "x.com".data
      ("/a".data ++ '/' :: "b".data) none none := by
    refine ⟨Or.inr rfl, by decide, by decide, Or.inr ⟨"a/b".data, rfl⟩,
      by decide, by decide, by decide,
      (fun q hq => nomatch hq), (fun q hq => nomatch hq),
      (fun q hq => nomatch hq), (fun f hf => nomatch hf),
      (fun f hf => nomatch hf), by decide⟩
  have hforce := normalize_url_equivalences.2.2.2 "x.com/a" (by decide)
    (by unfold noWS noWSL; decide) (by decide) (by decide) (by decide)
  exact ⟨normalize_url_equivalences.1 "https://x.com/a" (by decide)
      (by unfold noWS noWSL; decide),
    normalize_url_equivalences.2.1 "https" "x.com".data "/a//b".data
      (some "q=1".data) (some "f".data) wfq,
    normalize_url_equivalences.2.2.1 "https" "x.com".data "/a".data "b".data
      none none wfd1 wfd2,
    hforce.1, hforce.2⟩

/-! ## Title extraction: `BaseScraper._extract_document_info`

Python source (canarias-pyme-scraper/institution_scrapers/base_scraper.py,
lines 251-304 — the improved variant the spec adopts as canonical):

    title = link.get_text(strip=True)
    if not title:
        title = link.get('title', link.get('aria-label', ''))
    title = ' '.join(title.split())
    if len(title) > 200:
        title = title[:197] + "..."
    ...
    'title': title or 'Documento sin título'

An anchor is modelled by its stripped text and its optional `title` and
`aria-label` attributes (`none` = attribute absent; `link.get` returns
the second argument only when the attribute is absent). -/

/-- An anchor element as seen by `_extract_document_info`. -/
structure LinkElem where
  text : String
  title_attr : Option String
  aria_label : Option String

/-- Python `str.split()` (split on whitespace runs, dropping empties),
accumulator-based. -/
def pySplitAux : List Char → List Char → List (List Char)
  | [], acc => if acc = [] then [] else [acc.reverse]
  | c :: t, acc =>
      if isPySpace c then
        if acc = [] then pySplitAux t [] else acc.reverse :: pySplitAux t []
      else pySplitAux t (c :: acc)

/-- Python `' '.join(s.split())`: whitespace normalization. -/
def normSpaces (s : String) : String :=
  ⟨List.intercalate [' '] (pySplitAux s.data [])⟩

/-- The 200-character cap: `title[:197] + "..."` when over 200. -/
def pyTruncate200 (t : String) : String :=
  if 200 < t.length then (⟨t.data.take 197⟩ : String) ++ "..." else t

/-- The raw title source: link text, else the `title` attribute, else
`aria-label`, else the empty string. -/
def chosenTitle (link : LinkElem) : String :=
  if link.text ≠ "" then link.text
  else link.title_attr.getD (link.aria_label.getD "")

/-- The title produced by the improved `_extract_document_info`. -/
def extract_title (link : LinkElem) : String :=
  if pyTruncate200 (normSpaces (chosenTitle link)) = "" then "Documento sin título"
  else pyTruncate200 (normSpaces (chosenTitle link))

/-- The title field of the candidate returned by
`_extract_document_info link base_url`; the resolved URL plays no part in
it. -/
def extract_document_title (link : LinkElem) (_full_url : String) : String :=
  extract_title link

/-- Last segment of a path (Python `path.split('/')[-1]`). -/
def lastSegmentP (l : List Char) : List Char :=
  (l.reverse.takeWhile (fun c => c ≠ '/')).reverse

/-- Separator replacement of the older extractor:
`filename.replace('%20', ' ').replace('_', ' ')` in one pass. -/
def decodeSeps : List Char → List Char
  | '%' :: '2' :: '0' :: t => ' ' :: decodeSeps t
  | '_' :: t => ' ' :: decodeSeps t
  | c :: t => c :: decodeSeps t
  | [] => []

/-- A name derived from the last path segment of a URL with separators
replaced by spaces. -/
def urlDerivedName (url : String) : String :=
  ⟨decodeSeps (lastSegmentP url.data)⟩

/-- Modelled from the spec: the title resolution order of spec §4.3 —
link text, then title/aria-label attribute, then a name derived from the
last path segment of the URL with separators replaced by spaces, then the
fallback literal — with the 200-character cap.  Stated only to compare
with the code's `extract_document_title`; the URL-derived step exists in
the repository only in the older extractor variant
(institution_scrapers/base_scraper.py lines 69-102, which in turn
consults `alt` instead of `aria-label`, has no fallback literal and no
truncation). -/
def specTitleResolution (link : LinkElem) (full_url : String) : String :=
  if link.text ≠ "" then pyTruncate200 link.text
  else if link.title_attr.getD (link.aria_label.getD "") ≠ "" then
    pyTruncate200 (link.title_attr.getD (link.aria_label.getD ""))
  else if urlDerivedName full_url ≠ "" then pyTruncate200 (urlDerivedName full_url)
  else "Documento sin título"

/-- C8.  Counterexample to the claim as stated: for an anchor with no
text and no title/aria-label attributes pointing at
`https://x.com/mi_formulario.pdf`, the extractor yields the fallback
literal directly — it never derives "mi formulario.pdf" from the last
path segment, as the claimed resolution order would require. -/
theorem extract_title_no_url_derivation_cex :
    extract_document_title ⟨"", none, none⟩ "https://x.com/mi_formulario.pdf" =
      "Documento sin título" ∧
    specTitleResolution ⟨"", none, none⟩ "https://x.com/mi_formulario.pdf" =
      "mi formulario.pdf" ∧
    ("Documento sin título" : String) ≠ "mi formulario.pdf" := by
  refine ⟨by decide, by decide, by decide⟩

theorem take197_append_dots_length {t : String} (h : 200 < t.length) :
    ((⟨t.data.take 197⟩ : String) ++ "...").length = 200 := by
  show ((t.data.take 197) ++ "...".data).length = 200
  rw [List.length_append, List.length_take,
    show ("...".data).length = 3 from rfl]
  have : t.data.length = t.length := rfl
  omega

/-- C8.  AMENDED.  In the improved extractor the title is resolved as:
link text, then the `title` attribute, then `aria-label`, then the
fallback literal "Documento sin título" — a name derived from the URL is
never used (the result is independent of the resolved URL; the
URL-derived step exists only in the older extractor variant).  Every
title longer than 200 characters after whitespace normalization is
truncated to its first 197 characters plus an ellipsis, giving exactly
200 characters; the produced title never exceeds 200 characters. -/
theorem extract_title_resolution :
    (∀ (link : LinkElem) (u1 u2 : String),
      extract_document_title link u1 = extract_document_title link u2) ∧
    (∀ (t : String) (a1 b1 a2 b2 : Option String), t ≠ "" →
      extract_title ⟨t, a1, b1⟩ = extract_title ⟨t, a2, b2⟩) ∧
    (∀ (ta : String) (b1 b2 : Option String),
      extract_title ⟨"", some ta, b1⟩ = extract_title ⟨"", some ta, b2⟩) ∧
    (∀ al : String,
      extract_title ⟨"", none, some al⟩ = extract_title ⟨al, none, none⟩) ∧
    (extract_title ⟨"", none, none⟩ = "Documento sin título") ∧
    (∀ link : LinkElem, (extract_title link).length ≤ 200) ∧
    (∀ link : LinkElem, 200 < (normSpaces (chosenTitle link)).length →
      extract_title link =
        (⟨(normSpaces (chosenTitle link)).data.take 197⟩ : String) ++ "..." ∧
      (extract_title link).length = 200) := by
  refine ⟨?_, ?_, ?_, ?_, ?_, ?_, ?_⟩
  · intro link u1 u2
    rfl
  · intro t a1 b1 a2 b2 ht
    unfold extract_title chosenTitle
    simp only [ht, if_true, ne_eq, not_false_eq_true, if_pos]
  · intro ta b1 b2
    unfold extract_title chosenTitle
    rfl
  · intro al
    have hch : chosenTitle ⟨"", none, some al⟩ = chosenTitle ⟨al, none, none⟩ := by
      unfold chosenTitle
      by_cases hal : al = ""
      · subst hal
        rfl
      · simp [hal]
    unfold extract_title
    rw [hch]
  · decide
  · intro link
    unfold extract_title
    by_cases hz : pyTruncate200 (normSpaces (chosenTitle link)) = ""
    · rw [if_pos hz]
      decide
    · rw [if_neg hz]
      unfold pyTruncate200
      by_cases hlen : 200 < (normSpaces (chosenTitle link)).length
      · rw [if_pos hlen]
        rw [take197_append_dots_length hlen]
      · rw [if_neg hlen]
        omega
  · intro link hlen
    have htrunc : pyTruncate200 (normSpaces (chosenTitle link)) =
        (⟨(normSpaces (chosenTitle link)).data.take 197⟩ : String) ++ "..." := by
      unfold pyTruncate200
      rw [if_pos hlen]
    have hne : pyTruncate200 (normSpaces (chosenTitle link)) ≠ "" := by
      rw [htrunc]
      intro h
      have := congrArg String.length h
      rw [take197_append_dots_length hlen] at this
      exact absurd this (by decide)
    constructor
    · unfold extract_title
      rw [if_neg hne, htrunc]
    · unfold extract_title
      rw [if_neg hne, htrunc, take197_append_dots_length hlen]

set_option maxRecDepth 10000 in
/-- Witness for `extract_title_resolution`: attribute-independence with a
nonempty text, and the exact truncation of a 201-character title. -/
theorem extract_title_resolution_witness :
    extract_title ⟨"Guia", some "x", none⟩ = extract_title ⟨"Guia", none, some "y"⟩ ∧
    extract_title ⟨⟨List.replicate 201 'a'⟩, none, none⟩ =
      (⟨(normSpaces (chosenTitle ⟨⟨List.replicate 201 'a'⟩, none, none⟩)).data.take 197⟩ :
        String) ++ "..." := by
  constructor
  · exact extract_title_resolution.2.1 "Guia" (some "x") none none (some "y") (by decide)
  · exact (extract_title_resolution.2.2.2.2.2.2 ⟨⟨List.replicate 201 'a'⟩, none, none⟩
      (by decide)).1

/-! ## Download manager: `FileManager.download_document`

Python source (utils/file_manager.py, lines 110-316).  The model passes
state explicitly: the in-memory ledgers (`downloaded_hashes`,
`failed_downloads`) and a file system mapping relative paths
(`category/filename`) to byte contents.  One call's network behaviour is
an explicit `GetOutcome` (either `requests.get` raising, or a response
with status, declared headers and a stream of chunk events, where an
event can also be a mid-transfer network error raised by `iter_content`
or an I/O error raised by `write`).  The `HEAD`-request fallback inside
`get_file_extension` is represented by an explicit `headExt` parameter
(the extension that request would yield) and is counted as a network call
when reached; the inputs settled below never reach it. -/

/-- ASCII byte value of each character of a literal. -/
def strBytes (s : String) : List Nat := s.data.map Char.toNat

/-- `bytes.lower()` on one byte. -/
def lowerByte (b : Nat) : Nat := if 65 ≤ b ∧ b ≤ 90 then b + 32 else b

/-- File system: relative path to byte content. -/
structure FS where
  files : List (String × List Nat)
deriving DecidableEq

/-- Write (create or truncate-and-write) a file. -/
def FS.set (fs : FS) (path : String) (content : List Nat) : FS :=
  ⟨(path, content) :: fs.files.filter (fun p => decide (p.1 ≠ path))⟩

/-- `Path.unlink(missing_ok=True)`. -/
def FS.unlink (fs : FS) (path : String) : FS :=
  ⟨fs.files.filter (fun p => decide (p.1 ≠ path))⟩

/-- Look up a file's content. -/
def FS.get? (fs : FS) (path : String) : Option (List Nat) :=
  (fs.files.find? (fun p => p.1 == path)).map Prod.snd

/-- File-existence check. -/
def FS.exists (fs : FS) (path : String) : Bool :=
  (fs.get? path).isSome

/-- One event of `response.iter_content`. -/
inductive StreamEvent where
  | chunk : List Nat → StreamEvent
  | netErr : StreamEvent
  | ioErr : StreamEvent
deriving DecidableEq

/-- A delivered HTTP response. -/
structure HttpResponse where
  status : Nat
  contentType : String
  contentLength : Option Nat
  events : List StreamEvent
deriving DecidableEq

/-- Outcome of the single `requests.get` call. -/
inductive GetOutcome where
  | raises : GetOutcome
  | response : HttpResponse → GetOutcome
deriving DecidableEq

/-- Mutable state of the `FileManager` plus the disk. -/
structure DLState where
  downloaded : List String
  failed : List String
  fs : FS
deriving DecidableEq

/-- Result of one `download_document` call: the returned path (if any),
the state after the call, and the number of network requests made. -/
structure DLResult where
  result : Option String
  state : DLState
  netCalls : Nat
deriving DecidableEq

/-- The allow-list of `_is_valid_content_type`. -/
def valid_content_types : List String :=
  ["application/pdf", "application/msword",
   "application/vnd.openxmlformats-officedocument", "application/vnd.ms-excel",
   "text/plain", "application/rtf", "text/csv"]

/-- `FileManager._is_valid_content_type`. -/
def is_valid_content_type (content_type : String) : Bool :=
  valid_content_types.any (fun v => pyContains content_type v)

/-- ASCII word character (`\w` of the source's regex, ASCII model). -/
def isWordChar (c : Char) : Bool :=
  ('a' ≤ c && c ≤ 'z') || ('A' ≤ c && c ≤ 'Z') || ('0' ≤ c && c ≤ '9') || c == '_'

/-- Characters matched by `[-\s]`. -/
def isSpaceOrHyphen (c : Char) : Bool := isPySpace c || c == '-'

/-- `re.sub(r'[-\s]+', '_', ...)`: every run of spaces/hyphens becomes
one underscore (flag records whether a run is open). -/
def underscoreRunsAux : List Char → Bool → List Char
  | [], _ => []
  | c :: t, inRun =>
      if isSpaceOrHyphen c then
        if inRun then underscoreRunsAux t true
        else '_' :: underscoreRunsAux t true
      else c :: underscoreRunsAux t false

/-- `FileManager._generate_filename`. -/
def generate_filename (doc_hash title file_ext : String) : String :=
  let clean := underscoreRunsAux
    (stripP (title.data.filter (fun c => isWordChar c || isPySpace c || c == '-')))
    false
  if clean ≠ [] ∧ 3 < clean.length then
    (⟨clean.take 50⟩ : String) ++ "_" ++ (⟨doc_hash.data.take 8⟩ : String) ++ file_ext
  else "doc_" ++ (⟨doc_hash.data.take 12⟩ : String) ++ file_ext

/-- Percent-decoding of `urllib.parse.unquote` (single-byte/ASCII model). -/
def hexVal (c : Char) : Option Nat :=
  if '0' ≤ c ∧ c ≤ '9' then some (c.toNat - 48)
  else if 'a' ≤ c ∧ c ≤ 'f' then some (c.toNat - 87)
  else if 'A' ≤ c ∧ c ≤ 'F' then some (c.toNat - 55)
  else none

/-- `urllib.parse.unquote` on a character list (ASCII model). -/
def pyUnquoteP : List Char → List Char
  | '%' :: a :: b :: t =>
      match hexVal a, hexVal b with
      | some x, some y => Char.ofNat (16 * x + y) :: pyUnquoteP t
      | _, _ => '%' :: pyUnquoteP (a :: b :: t)
  | c :: t => c :: pyUnquoteP t
  | [] => []

/-- `os.path.splitext(...)` restricted to its extension component:
the last dot of the basename, ignoring leading dots. -/
def splitextExt (path : List Char) : List Char :=
  let base := lastSegmentP path
  let stripped := base.dropWhile (fun c => c == '.')
  let revExt := stripped.reverse.takeWhile (fun c => c ≠ '.')
  if revExt.length = stripped.length then [] else '.' :: revExt.reverse

/-- The content-type to extension table `MIME_EXTENSIONS`. -/
def MIME_EXTENSIONS : List (String × String) :=
  [("application/pdf", ".pdf"),
   ("application/msword", ".doc"),
   ("application/vnd.openxmlformats-officedocument.wordprocessingml.document", ".docx"),
   ("application/vnd.ms-excel", ".xls"),
   ("application/vnd.openxmlformats-officedocument.spreadsheetml.sheet", ".xlsx"),
   ("text/plain", ".txt"),
   ("application/rtf", ".rtf"),
   ("text/csv", ".csv")]

/-- `MIME_EXTENSIONS.get(content_type.split(';')[0].strip())`. -/
def mimeExt (content_type : String) : Option String :=
  let main := pyStrip ⟨((splitAtFirst ';' content_type.data).map Prod.fst).getD
    content_type.data⟩
  (MIME_EXTENSIONS.find? (fun p => p.1 == main)).map Prod.snd

/-- `FileManager.get_file_extension`; the second component counts the
`HEAD` request of the third fallback (taken only when the URL path and
the supplied content type both fail to determine an extension). -/
def get_file_extension (url : String) (content_type : Option String)
    (headExt : Option String) : String × Nat :=
  let path := pyUnquoteP (parse_http_url url).path.data
  if path ≠ [] ∧ splitextExt path ≠ [] ∧ (splitextExt path).length ≤ 6 then
    (pyLower ⟨splitextExt path⟩, 0)
  else
    match content_type.bind mimeExt with
    | some ext => (ext, 0)
    | none =>
        match headExt with
        | some ext => (ext, 1)
        | none =>
            if pyContains (pyLower url) "pdf" then (".pdf", 1)
            else if pyContains (pyLower url) "doc" ||
                pyContains (pyLower url) "word" then (".doc", 1)
            else if pyContains (pyLower url) "xls" ||
                pyContains (pyLower url) "excel" then (".xls", 1)
            else (".unknown", 1)

/-- The 5-byte PDF signature check of `_validate_pdf`. -/
def validate_pdf (content : List Nat) : Bool :=
  content.take 5 == strBytes "%PDF-"

/-- `_validate_office_doc`: the first 100 bytes, lowercased, contain no
HTML markers. -/
def validate_office_doc (content : List Nat) : Bool :=
  !listContains ((content.take 100).map lowerByte) (strBytes "<html") &&
  !listContains ((content.take 100).map lowerByte) (strBytes "<!doctype")

/-- The marker list of `_is_error_page`. -/
def error_indicators : List (List Nat) :=
  [strBytes "<html", strBytes "<!doctype", strBytes "<head>",
   strBytes "error 404", strBytes "not found", strBytes "access denied",
   strBytes "forbidden"]

/-- `_is_error_page`: any marker inside the first 1000 bytes, lowercased. -/
def is_error_page (content : List Nat) : Bool :=
  error_indicators.any
    (fun ind => listContains ((content.take 1000).map lowerByte) ind)

/-- `_validate_downloaded_file` on the freshly written content. -/
def validate_downloaded_file (content : List Nat) (expected_ext : String) : Bool :=
  if content.length = 0 then false
  else if expected_ext = ".pdf" then validate_pdf content
  else if expected_ext = ".doc" ∨ expected_ext = ".docx" then
    validate_office_doc content
  else !is_error_page content

/-- `_get_existing_file_path`: first file under the category directory
whose name contains the full hash, as a relative path. -/
def get_existing_file_path (fs : FS) (doc_hash category : String) :
    Option String :=
  (fs.files.find? (fun p =>
    pyStartsWith p.1 (category ++ "/") &&
    pyContains (⟨lastSegmentP p.1.data⟩ : String) doc_hash)).map Prod.fst

/-- Outcome of the chunked write loop. -/
inductive StreamResult where
  | ok : List Nat → StreamResult
  | tooBig : StreamResult
  | exc : List Nat → StreamResult
deriving DecidableEq

/-- The `for chunk in response.iter_content(...)` loop with the running
size check; `exc` carries the bytes already written when `iter_content`
or `write` raises. -/
def streamLoop (maxBytes : Nat) : List StreamEvent → List Nat → StreamResult
  | [], acc => .ok acc
  | .chunk b :: t, acc =>
      if maxBytes < (acc ++ b).length then .tooBig
      else streamLoop maxBytes t (acc ++ b)
  | .netErr :: _, acc => .exc acc
  | .ioErr :: _, acc => .exc acc

/-- The declared-length rejection: `int(content_length)/(1024*1024) >
max_size_mb`, i.e. `n > maxSizeMb * 1048576` exactly. -/
def declared_too_big (contentLength : Option Nat) (maxSizeMb : Nat) : Bool :=
  match contentLength with
  | some n => decide (maxSizeMb * 1048576 < n)
  | none => false

/-- `FileManager.download_document`.  Mirrors the source line by line:
cache hit, failed-set hit, the GET, `raise_for_status`, content-type
check, declared-length check, extension and filename computation, the
streaming loop with the mid-stream ceiling (which unlinks the partial
file), post-download validation (which unlinks on failure), and the
`except` handlers, which add the id to the failed set and return `None`
WITHOUT unlinking anything. -/
def download_document (st : DLState) (url category doc_hash title : String)
    (maxSizeMb : Nat) (net : GetOutcome) (headExt : Option String) : DLResult :=
  if doc_hash ∈ st.downloaded then
    ⟨get_existing_file_path st.fs doc_hash category, st, 0⟩
  else if doc_hash ∈ st.failed then
    ⟨none, st, 0⟩
  else
    match net with
    | .raises => ⟨none, ⟨st.downloaded, doc_hash :: st.failed, st.fs⟩, 1⟩
    | .response r =>
        if 400 ≤ r.status ∧ r.status ≤ 599 then
          ⟨none, ⟨st.downloaded, doc_hash :: st.failed, st.fs⟩, 1⟩
        else
          let content_type := pyLower r.contentType
          if ¬ is_valid_content_type content_type then
            ⟨none, ⟨st.downloaded, doc_hash :: st.failed, st.fs⟩, 1⟩
          else if declared_too_big r.contentLength maxSizeMb then
            ⟨none, ⟨st.downloaded, doc_hash :: st.failed, st.fs⟩, 1⟩
          else
            let ext := get_file_extension url (some content_type) headExt
            let filename := generate_filename doc_hash title ext.1
            let file_path := category ++ "/" ++ filename
            match streamLoop (maxSizeMb * 1048576) r.events [] with
            | .tooBig =>
                ⟨none, ⟨st.downloaded, doc_hash :: st.failed,
                  st.fs.unlink file_path⟩, 1 + ext.2⟩
            | .exc partialContent =>
                ⟨none, ⟨st.downloaded, doc_hash :: st.failed,
                  st.fs.set file_path partialContent⟩, 1 + ext.2⟩
            | .ok content =>
                if validate_downloaded_file content ext.1 then
                  ⟨some file_path, ⟨doc_hash :: st.downloaded, st.failed,
                    st.fs.set file_path content⟩, 1 + ext.2⟩
                else
                  ⟨none, ⟨st.downloaded, doc_hash :: st.failed,
                    st.fs.unlink file_path⟩, 1 + ext.2⟩

/-- C6.  The claim holds for the zero-network half but fails for the
returned path: with the success ledger containing the id and the file
stored on disk under the name `_generate_filename` itself produced
(`doc_` + the first 12 hash characters + extension), the call makes zero
network calls for EVERY network environment — but returns `None`, not the
existing path, because `_get_existing_file_path` looks for the full
32-character hash inside the file name, which only ever contains an 8- or
12-character prefix of it. -/
theorem cache_hit_no_network_returns_none :
    generate_filename "0123456789abcdef0123456789abcdef" "" ".pdf" =
      "doc_0123456789ab.pdf" ∧
    FS.exists ⟨[("fiscal/doc_0123456789ab.pdf", strBytes "%PDF-1.4")]⟩
      "fiscal/doc_0123456789ab.pdf" = true ∧
    (∀ (net : GetOutcome) (headExt : Option String),
      download_document
        ⟨["0123456789abcdef0123456789abcdef"], [],
          ⟨[("fiscal/doc_0123456789ab.pdf", strBytes "%PDF-1.4")]⟩⟩
        "https://x.com/modelo030.pdf" "fiscal"
        "0123456789abcdef0123456789abcdef" "" 50 net headExt =
      ⟨none, ⟨["0123456789abcdef0123456789abcdef"], [],
        ⟨[("fiscal/doc_0123456789ab.pdf", strBytes "%PDF-1.4")]⟩⟩, 0⟩) := by
  refine ⟨by decide, by decide, ?_⟩
  intro net headExt
  rfl

/-- C4.  The claim fails on the code: a network error raised by
`iter_content` in mid-transfer propagates to the `except` handlers, which
record the id as failed and return `None` but never delete the file, so
the partial download remains on disk.  Concretely: a 200 response with a
valid PDF content type whose stream delivers one chunk and then a network
error leaves `fiscal/doc_<id-prefix>.pdf` on disk holding the partial
bytes. -/
theorem download_network_error_leaves_partial_file :
    download_document ⟨[], [], ⟨[]⟩⟩ "https://x.com/doc.pdf" "fiscal"
        "0123456789abcdef0123456789abcdef" "" 50
        (GetOutcome.response ⟨200, "application/pdf", none,
          [StreamEvent.chunk (strBytes "%PDF-1.4 x"), StreamEvent.netErr]⟩)
        none =
      ⟨none, ⟨[], ["0123456789abcdef0123456789abcdef"],
        ⟨[("fiscal/doc_0123456789ab.pdf", strBytes "%PDF-1.4 x")]⟩⟩, 1⟩ ∧
    FS.exists ⟨[("fiscal/doc_0123456789ab.pdf", strBytes "%PDF-1.4 x")]⟩
      "fiscal/doc_0123456789ab.pdf" = true := by
  constructor
  · decide
  · decide

end Scraper
